import Mathlib

/-
Verification of the rtrie radix trie (src/lib.rs) against its specification.

The Rust source is shallowly embedded below: `TrieNode` is the node type,
`searchNode` is `search_node`, and the public operations (`entry`, `insert`,
`get`, `remove`, `or_insert`, `len`, `prefix_len`, `is_empty`) are translated
as pure functions.  The raw `*mut TrieNode` ancestor pointers of the source
are modelled by child-index paths from the root: `nodeAt` models dereferencing
such a pointer, `modifyAt` models writing through it, and `removeEntryGo`
models `remove_entry`'s bottom-up pruning walk.  Keys and values are
`List Nat` / an arbitrary type `C`.
-/

set_option maxHeartbeats 1600000

namespace Rtrie

/-- Embedding of `TrieNode<C>`: edge label `segment`, ordered children,
optional stored value `data`. -/
inductive TrieNode (C : Type) where
  | mk (segment : List Nat) (children : List (TrieNode C)) (data : Option C)

variable {C : Type}

@[simp] def TrieNode.segment : TrieNode C → List Nat
  | .mk s _ _ => s

@[simp] def TrieNode.children : TrieNode C → List (TrieNode C)
  | .mk _ cs _ => cs

@[simp] def TrieNode.data : TrieNode C → Option C
  | .mk _ _ d => d

/-- `TrieNode::new()`. -/
def TrieNode.new : TrieNode C := .mk [] [] none

/-- `PosType` from the source. -/
inductive PosType where
  | leaf
  | edge (n : Nat)
  | child (n : Nat)
deriving DecidableEq

/-- `SearchKey`: a key together with the number of already-consumed bytes. -/
structure SearchKey where
  base : List Nat
  offset : Nat
deriving DecidableEq

/-- `SearchKey::as_ref`: the unconsumed suffix. -/
def SearchKey.asRef (k : SearchKey) : List Nat := k.base.drop k.offset

/-- `SearchKey::consume`. -/
def SearchKey.consume (k : SearchKey) (s : Nat) : SearchKey := ⟨k.base, k.offset + s⟩

/-- `SearchKey::is_empty`. -/
def SearchKey.isEmpty (k : SearchKey) : Bool := k.base.length == k.offset

/-- `SearchKey::first` (`base[offset]`; the source indexes unconditionally,
which is only reached when the key is non-empty). -/
def SearchKey.first (k : SearchKey) : Nat := k.base.getD k.offset 0

/-- `common_prefix`: length of the common prefix of two byte strings,
written as in the source via `zip`/`take_while`/`count`. -/
def commonPrefixLen (lhs rhs : List Nat) : Nat :=
  ((lhs.zip rhs).takeWhile (fun p => p.1 == p.2)).length

/-- The first byte of a node's segment (`segment[0]`; nodes reached through
child search always have a non-empty segment). -/
def segHead (n : TrieNode C) : Nat := n.segment.headD 0

/-- Models `children.binary_search_by(|k| k.segment[0].cmp(&key.first()))` by
the contract of `slice::binary_search_by` on a slice sorted (strictly) by
first segment byte: `inl (i, c)` is `Ok(i)` with `c` the child at `i`,
`inr i` is `Err(i)` with `i` the sorted insertion point. -/
def childFind (b : Nat) : List (TrieNode C) → (Nat × TrieNode C) ⊕ Nat
  | [] => Sum.inr 0
  | c :: cs =>
    if segHead c < b then
      match childFind b cs with
      | Sum.inl (i, m) => Sum.inl (i + 1, m)
      | Sum.inr i => Sum.inr (i + 1)
    else if segHead c = b then Sum.inl (0, c)
    else Sum.inr 0

theorem childFind_inl_mem {b : Nat} {cs : List (TrieNode C)} {i : Nat} {m : TrieNode C}
    (h : childFind b cs = Sum.inl (i, m)) : m ∈ cs := by
  induction cs generalizing i with
  | nil => simp [childFind] at h
  | cons c cs ih =>
    simp only [childFind] at h
    split at h
    · cases hc : childFind b cs with
      | inl p =>
        rw [hc] at h
        cases p with
        | mk j m2 =>
          simp at h
          exact List.mem_cons_of_mem _ (ih (by rw [hc, h.2]))
      | inr j => rw [hc] at h; simp at h
    · split at h
      · simp at h
        simp [h.2]
      · simp at h

/-- Result of `search_node`: `Found` / `NotFound`, with the node pointer and
the ancestor `levels` chain both encoded as the child-index path from the
searched node down to the designated node. -/
inductive SearchResult (C : Type) where
  | found (path : List Nat) (key : SearchKey)
  | notFound (path : List Nat) (pos : PosType) (left : SearchKey)

/-- `search_node` from the source (recursive descent).  The `levels` vector,
pushed on unwind in the source, is the reversed `path` recorded here. -/
def searchNode : TrieNode C → SearchKey → SearchResult C
  | .mk seg cs d, key =>
    let ps := commonPrefixLen seg key.asRef
    let key' := key.consume ps
    if ps ≠ seg.length then
      .notFound [] (.edge ps) key'
    else if !key'.isEmpty then
      match h : childFind key'.first cs with
      | .inl (i, c) =>
        match searchNode c key' with
        | .found path k => .found (i :: path) k
        | .notFound path pos left => .notFound (i :: path) pos left
      | .inr i => .notFound [] (.child i) key'
    else if d.isNone then
      .notFound [] .leaf ⟨[], 0⟩
    else
      .found [] key'
termination_by n _ => sizeOf n
decreasing_by
  have hm := childFind_inl_mem h
  have := List.sizeOf_lt_of_mem hm
  simp
  omega

/-- Dereference the node designated by a child-index path (models following
the recorded `*mut TrieNode` pointer). -/
def nodeAt : TrieNode C → List Nat → TrieNode C
  | n, [] => n
  | n, i :: p => nodeAt ((n.children[i]?).getD TrieNode.new) p

/-- Write through the node designated by a child-index path (models mutating
through the recorded `*mut TrieNode` pointer). -/
def modifyAt : TrieNode C → List Nat → (TrieNode C → TrieNode C) → TrieNode C
  | n, [], f => f n
  | n, i :: p, f =>
    .mk n.segment (n.children.set i (modifyAt ((n.children[i]?).getD TrieNode.new) p f)) n.data

/-- `remove_entry` from the source: take the found node's value, then walk the
ancestor chain bottom-up, removing the child at the recorded index as long as
the just-modified node has become valueless and childless; the returned `Bool`
is "this node is now empty and must be deleted by its parent".  The top-level
caller ignores the flag (the root is never deleted). -/
def removeEntryGo : TrieNode C → List Nat → TrieNode C × Option C × Bool
  | n, [] => (.mk n.segment n.children none, n.data, n.children.isEmpty)
  | n, i :: p =>
    let r := removeEntryGo ((n.children[i]?).getD TrieNode.new) p
    let cs' := if r.2.2 then n.children.eraseIdx i else n.children.set i r.1
    (.mk n.segment cs' n.data, r.2.1, cs'.isEmpty && n.data.isNone)

/-- `Entry<C>`: `Vacant` keeps the split position, the (left-over) key and its
offset; `Occupied` keeps the key.  The node pointer of the source is the
recorded path. -/
inductive Entry (C : Type) where
  | vacant (path : List Nat) (pos : PosType) (key : List Nat) (keyOff : Nat)
  | occupied (path : List Nat) (key : List Nat)

/-- `TrieNode::entry`. -/
def TrieNode.entry (t : TrieNode C) (k : List Nat) : Entry C :=
  match searchNode t ⟨k, 0⟩ with
  | .found path kk => .occupied path kk.base
  | .notFound path pos left => .vacant path pos left.base left.offset

/-- `Entry::key` (via `VacantEntry::key` / `OccupiedEntry::key`). -/
def Entry.key : Entry C → List Nat
  | .vacant _ _ k _ => k
  | .occupied _ k => k

/-- `VacantEntry::insert`, acting on the node recorded in the entry:
edge split, sorted child insertion, or in-place value store. -/
def vacantInsert (pos : PosType) (key : List Nat) (keyOff : Nat) (v : C)
    (n : TrieNode C) : TrieNode C :=
  match pos with
  | .leaf => .mk n.segment n.children (some v)
  | .child i => .mk n.segment (n.children.insertIdx i (.mk (key.drop keyOff) [] (some v))) n.data
  | .edge p =>
    let sc : TrieNode C := .mk (n.segment.drop p) n.children n.data
    if key.length = keyOff then .mk (n.segment.take p) [sc] (some v)
    else
      let i : Nat := if segHead sc ≤ key.getD keyOff 0 then 1 else 0
      .mk (n.segment.take p) (([sc] : List (TrieNode C)).insertIdx i
        (.mk (key.drop keyOff) [] (some v))) none

/-- `OccupiedEntry::insert`'s effect on the node: replace the stored value. -/
def occupiedInsertAt (v : C) (n : TrieNode C) : TrieNode C :=
  .mk n.segment n.children (some v)

/-- `TrieNode::insert`.  The returned option is the previous value; the source
unwraps the occupied node's value, which the search guarantees present. -/
def TrieNode.insert (t : TrieNode C) (k : List Nat) (v : C) : TrieNode C × Option C :=
  match t.entry k with
  | .occupied path _ => (modifyAt t path (occupiedInsertAt v), (nodeAt t path).data)
  | .vacant path pos kk off => (modifyAt t path (vacantInsert pos kk off v), none)

/-- `TrieNode::get`. -/
def TrieNode.get (t : TrieNode C) (k : List Nat) : Option C :=
  match searchNode t ⟨k, 0⟩ with
  | .found path _ => (nodeAt t path).data
  | .notFound _ _ _ => none

/-- `TrieNode::remove`. -/
def TrieNode.remove (t : TrieNode C) (k : List Nat) : TrieNode C × Option C :=
  match searchNode t ⟨k, 0⟩ with
  | .found path _ => ((removeEntryGo t path).1, (removeEntryGo t path).2.1)
  | .notFound _ _ _ => (t, none)

/-- `Entry::or_insert` applied to `t.entry k`: the second component models
what the returned `&mut C` reference yields. -/
def TrieNode.orInsert (t : TrieNode C) (k : List Nat) (v : C) : TrieNode C × Option C :=
  match t.entry k with
  | .vacant path pos kk off => (modifyAt t path (vacantInsert pos kk off v), some v)
  | .occupied path _ => (t, (nodeAt t path).data)

mutual

/-- `TrieNode::len` (recursive sum over children plus one for an own value);
the source folds over `children`. -/
def TrieNode.len : TrieNode C → Nat
  | .mk _ cs d => lenList cs + (if d.isSome then 1 else 0)

/-- Sum of `len` over a child list (the source's fold). -/
def lenList : List (TrieNode C) → Nat
  | [] => 0
  | c :: cs => c.len + lenList cs

end

/-- `NotFound::prefix_len` (the node pointer is the recorded path into `t`). -/
def notFoundPrefixLen (t : TrieNode C) (path : List Nat) (pos : PosType)
    (left : SearchKey) : Nat :=
  match pos with
  | .child _ => 0
  | .edge _ => if left.isEmpty then (nodeAt t path).len else 0
  | .leaf => (nodeAt t path).len

/-- `TrieNode::prefix_len`. -/
def TrieNode.prefixLen (t : TrieNode C) (p : List Nat) : Nat :=
  match searchNode t ⟨p, 0⟩ with
  | .found path _ => (nodeAt t path).len
  | .notFound path pos left => notFoundPrefixLen t path pos left

/-- `TrieNode::is_empty`. -/
def TrieNode.isEmpty (t : TrieNode C) : Bool := t.data.isNone && t.children.isEmpty

/- ---------------------------------------------------------------------------
Specification-side notions: the association list of stored keys, well-formed
trees, reachable trees, and helpers used to state the claims.
--------------------------------------------------------------------------- -/

mutual

/-- The key/value pairs stored in the subtree of a node; keys include the
node's own segment (so at the root, whose segment is empty, they are exactly
the inserted keys). -/
def TrieNode.entries : TrieNode C → List (List Nat × C)
  | .mk seg cs d =>
    (match d with | some v => [(seg, v)] | none => []) ++
      (entriesList cs).map (fun e => (seg ++ e.1, e.2))

/-- Concatenated `entries` of a child list. -/
def entriesList : List (TrieNode C) → List (List Nat × C)
  | [] => []
  | c :: cs => c.entries ++ entriesList cs

end

/-- Association-list lookup by key. -/
def lookupE : List (List Nat × C) → List Nat → Option C
  | [], _ => none
  | e :: l, k => if e.1 = k then some e.2 else lookupE l k

/-- Byte-wise "is a prefix of" test. -/
def isPre : List Nat → List Nat → Bool
  | [], _ => true
  | _ :: _, [] => false
  | a :: as, b :: bs => a == b && isPre as bs

/-- Strictly increasing first segment bytes along a child list. -/
def headsSorted : List (TrieNode C) → Bool
  | [] => true
  | [_] => true
  | a :: b :: rest => decide (segHead a < segHead b) && headsSorted (b :: rest)

mutual

/-- Full well-formedness of a non-root node: non-empty segment, value or at
least one child, children strictly sorted by first byte, children WF. -/
def WFc : TrieNode C → Bool
  | .mk seg cs d =>
    !seg.isEmpty && (d.isSome || !cs.isEmpty) && headsSorted cs && WFlist cs

/-- `WFc` for every node of a list. -/
def WFlist : List (TrieNode C) → Bool
  | [] => true
  | c :: cs => WFc c && WFlist cs

end

/-- Internal well-formedness at a node: its children are strictly sorted by
first byte and fully well-formed (no constraint on the node's own segment or
emptiness — the root is exempt from those). -/
def WFi (t : TrieNode C) : Bool := headsSorted t.children && WFlist t.children

/-- The structural invariant claimed for every reachable tree: every non-root
node has a non-empty segment and a value or a child, and every child list is
strictly sorted (hence pairwise distinct) in the first segment byte. -/
def WFroot (t : TrieNode C) : Bool := WFi t

/-- Trees reachable from the empty trie by the public mutating operations. -/
inductive Reachable : TrieNode C → Prop where
  | new : Reachable TrieNode.new
  | ins (k : List Nat) (v : C) {t : TrieNode C} : Reachable t → Reachable (t.insert k v).1
  | del (k : List Nat) {t : TrieNode C} : Reachable t → Reachable (t.remove k).1
  | orIns (k : List Nat) (v : C) {t : TrieNode C} : Reachable t → Reachable (t.orInsert k v).1

/-- Internal invariant: empty root segment plus internal well-formedness. -/
def RootOK (t : TrieNode C) : Prop := t.segment = [] ∧ WFi t = true

/-- Run a list of insertions. -/
def insRun (t : TrieNode C) (ops : List (List Nat × C)) : TrieNode C :=
  ops.foldl (fun t e => (t.insert e.1 e.2).1) t

/-- The most recently inserted value for a key in a list of insertions. -/
def mostRecent (ops : List (List Nat × C)) (k : List Nat) : Option C :=
  ops.foldl (fun acc e => if e.1 = k then some e.2 else acc) none

/-- A public mutating operation: insert or remove. -/
inductive Op (C : Type) where
  | ins (k : List Nat) (v : C)
  | del (k : List Nat)

/-- Apply one operation. -/
def applyOp (t : TrieNode C) : Op C → TrieNode C × Option C
  | .ins k v => t.insert k v
  | .del k => t.remove k

/-- Apply a list of operations. -/
def applyOps (t : TrieNode C) (ops : List (Op C)) : TrieNode C :=
  ops.foldl (fun t o => (applyOp t o).1) t

/-- Ledger of an operation run: (number of insertions of a not-yet-present
key, number of removals that returned a value). -/
def ledger : TrieNode C → List (Op C) → Nat × Nat
  | _, [] => (0, 0)
  | t, .ins k v :: ops =>
    let r := t.insert k v
    let rest := ledger r.1 ops
    ((if r.2.isNone then 1 else 0) + rest.1, rest.2)
  | t, .del k :: ops =>
    let r := t.remove k
    let rest := ledger r.1 ops
    (rest.1, (if r.2.isNone then 0 else 1) + rest.2)

/-- The number of distinct keys ever mentioned in insert operations
(the quantity named by the specification's len law). -/
def distinctKeysInserted (ops : List (Op C)) : Nat :=
  (ops.filterMap (fun o => match o with | .ins k _ => some k | .del _ => none)).dedup.length

/-- The position stored in a `Vacant` entry, if any. -/
def Entry.posOf : Entry C → Option PosType
  | .vacant _ pos _ _ => some pos
  | .occupied _ _ => none


/- ---------------------------------------------------------------------------
Basic lemmas: search keys, common prefixes, the prefix test, lookups.
--------------------------------------------------------------------------- -/

@[simp] theorem SearchKey.asRef_mk (b : List Nat) (o : Nat) :
    SearchKey.asRef ⟨b, o⟩ = b.drop o := rfl

@[simp] theorem SearchKey.consume_base (k : SearchKey) (s : Nat) :
    (k.consume s).base = k.base := rfl

@[simp] theorem SearchKey.consume_offset (k : SearchKey) (s : Nat) :
    (k.consume s).offset = k.offset + s := rfl

theorem SearchKey.asRef_consume (k : SearchKey) (s : Nat) :
    (k.consume s).asRef = k.asRef.drop s := by
  cases k with
  | mk b o => simp [SearchKey.asRef, SearchKey.consume, List.drop_drop, Nat.add_comm]

theorem SearchKey.asRef_length (k : SearchKey) :
    k.asRef.length = k.base.length - k.offset := by
  cases k with
  | mk b o => simp [SearchKey.asRef]

theorem SearchKey.isEmpty_true_iff {k : SearchKey} (h : k.offset ≤ k.base.length) :
    k.isEmpty = true ↔ k.asRef = [] := by
  cases k with
  | mk b o =>
    simp only [SearchKey.isEmpty, SearchKey.asRef, beq_iff_eq, List.drop_eq_nil_iff]
    simp at h
    omega

theorem SearchKey.isEmpty_false_iff {k : SearchKey} (h : k.offset ≤ k.base.length) :
    k.isEmpty = false ↔ k.asRef ≠ [] := by
  rw [← Bool.not_eq_true, not_iff_not]
  exact SearchKey.isEmpty_true_iff h

theorem SearchKey.first_eq_headD {k : SearchKey} (h : k.offset < k.base.length) :
    k.first = k.asRef.headD 0 := by
  cases k with
  | mk b o =>
    simp only [SearchKey.first, SearchKey.asRef]
    rw [List.getD_eq_getElem?_getD, List.headD_eq_head?]
    rw [List.head?_eq_getElem?, List.getElem?_drop, Nat.add_zero]

@[simp] theorem commonPrefixLen_nil_left (r : List Nat) : commonPrefixLen [] r = 0 := rfl

@[simp] theorem commonPrefixLen_nil_right (l : List Nat) : commonPrefixLen l [] = 0 := by
  cases l <;> rfl

@[simp] theorem commonPrefixLen_cons (a b : Nat) (as bs : List Nat) :
    commonPrefixLen (a :: as) (b :: bs) =
      if a = b then commonPrefixLen as bs + 1 else 0 := by
  simp only [commonPrefixLen, List.zip_cons_cons, List.takeWhile_cons]
  by_cases h : a = b <;> simp [h]

theorem commonPrefixLen_le_left (l r : List Nat) : commonPrefixLen l r ≤ l.length := by
  induction l generalizing r with
  | nil => simp
  | cons a as ih =>
    cases r with
    | nil => simp
    | cons b bs =>
      by_cases h : a = b
      · simp only [commonPrefixLen_cons, if_pos h, List.length_cons, Nat.add_le_add_iff_right]
        exact ih bs
      · simp [h]

theorem commonPrefixLen_le_right (l r : List Nat) : commonPrefixLen l r ≤ r.length := by
  induction l generalizing r with
  | nil => simp
  | cons a as ih =>
    cases r with
    | nil => simp
    | cons b bs =>
      by_cases h : a = b
      · simp only [commonPrefixLen_cons, if_pos h, List.length_cons, Nat.add_le_add_iff_right]
        exact ih bs
      · simp [h]

theorem commonPrefixLen_take (l r : List Nat) :
    l.take (commonPrefixLen l r) = r.take (commonPrefixLen l r) := by
  induction l generalizing r with
  | nil => simp
  | cons a as ih =>
    cases r with
    | nil => simp
    | cons b bs =>
      by_cases h : a = b
      · subst h
        simp only [commonPrefixLen_cons, eq_self_iff_true, if_true, List.take_succ_cons]
        rw [ih bs]
      · simp [h]

theorem commonPrefixLen_getD_ne {l r : List Nat}
    (hl : commonPrefixLen l r < l.length) (hr : commonPrefixLen l r < r.length) :
    l.getD (commonPrefixLen l r) 0 ≠ r.getD (commonPrefixLen l r) 0 := by
  induction l generalizing r with
  | nil => simp at hl
  | cons a as ih =>
    cases r with
    | nil => simp at hr
    | cons b bs =>
      by_cases h : a = b
      · simp only [commonPrefixLen_cons, if_pos h, List.length_cons,
          List.getD_cons_succ] at hl hr ⊢
        exact ih (by omega) (by omega)
      · simpa [h] using h

theorem commonPrefixLen_append (l x : List Nat) : commonPrefixLen l (l ++ x) = l.length := by
  induction l with
  | nil => simp
  | cons a as ih => simp [ih]

theorem commonPrefixLen_pos {l r : List Nat} (hl : l ≠ []) (hr : r ≠ [])
    (h : l.headD 0 = r.headD 0) : 0 < commonPrefixLen l r := by
  cases l with
  | nil => exact absurd rfl hl
  | cons a as =>
    cases r with
    | nil => exact absurd rfl hr
    | cons b bs =>
      simp at h
      simp [h]

@[simp] theorem isPre_nil (k : List Nat) : isPre [] k = true := rfl

@[simp] theorem isPre_cons_nil (a : Nat) (as : List Nat) : isPre (a :: as) [] = false := rfl

@[simp] theorem isPre_cons_cons (a b : Nat) (as bs : List Nat) :
    isPre (a :: as) (b :: bs) = ((a == b) && isPre as bs) := rfl

theorem isPre_iff_append {p k : List Nat} : isPre p k = true ↔ ∃ s, k = p ++ s := by
  induction p generalizing k with
  | nil => simp
  | cons a as ih =>
    cases k with
    | nil => simp
    | cons b bs =>
      simp only [isPre_cons_cons, Bool.and_eq_true, beq_iff_eq, ih, List.cons_append,
        List.cons.injEq]
      constructor
      · rintro ⟨hab, s, hs⟩
        exact ⟨s, hab.symm ▸ ⟨rfl, hs⟩⟩
      · rintro ⟨s, hb, hs⟩
        exact ⟨hb.symm, s, hs⟩

theorem isPre_append_self (p s : List Nat) : isPre p (p ++ s) = true :=
  isPre_iff_append.2 ⟨s, rfl⟩

theorem isPre_refl (k : List Nat) : isPre k k = true := by
  simpa using isPre_append_self k []

@[simp] theorem isPre_append_left (a b c : List Nat) :
    isPre (a ++ b) (a ++ c) = isPre b c := by
  induction a with
  | nil => simp
  | cons x xs ih => simp [ih]

theorem isPre_trans {a b c : List Nat} (h1 : isPre a b = true) (h2 : isPre b c = true) :
    isPre a c = true := by
  obtain ⟨s, rfl⟩ := isPre_iff_append.1 h1
  obtain ⟨u, rfl⟩ := isPre_iff_append.1 h2
  simpa [List.append_assoc] using isPre_append_self a (s ++ u)

theorem isPre_length_le {p k : List Nat} (h : isPre p k = true) : p.length ≤ k.length := by
  obtain ⟨s, rfl⟩ := isPre_iff_append.1 h
  simp

theorem isPre_getD {p k : List Nat} (h : isPre p k = true) {i : Nat} (hi : i < p.length) :
    p.getD i 0 = k.getD i 0 := by
  obtain ⟨s, rfl⟩ := isPre_iff_append.1 h
  rw [List.getD_eq_getElem?_getD, List.getD_eq_getElem?_getD, List.getElem?_append_left hi]

theorem isPre_take (l : List Nat) (i : Nat) : isPre (l.take i) l = true := by
  have h := isPre_append_self (l.take i) (l.drop i)
  rwa [List.take_append_drop] at h

@[simp] theorem lookupE_nil (k : List Nat) : lookupE ([] : List (List Nat × C)) k = none := rfl

theorem lookupE_cons (e : List Nat × C) (l : List (List Nat × C)) (k : List Nat) :
    lookupE (e :: l) k = if e.1 = k then some e.2 else lookupE l k := rfl

theorem lookupE_append_none {l1 : List (List Nat × C)} {k : List Nat}
    (h : lookupE l1 k = none) (l2 : List (List Nat × C)) :
    lookupE (l1 ++ l2) k = lookupE l2 k := by
  induction l1 with
  | nil => simp
  | cons e l ih =>
    rw [lookupE_cons] at h
    split at h
    · exact absurd h (by simp)
    · rw [List.cons_append, lookupE_cons, if_neg (by assumption)]
      exact ih h

theorem lookupE_append_some {l1 : List (List Nat × C)} {k : List Nat} {v : C}
    (h : lookupE l1 k = some v) (l2 : List (List Nat × C)) :
    lookupE (l1 ++ l2) k = some v := by
  induction l1 with
  | nil => simp at h
  | cons e l ih =>
    rw [lookupE_cons] at h
    rw [List.cons_append, lookupE_cons]
    split at h
    · rwa [if_pos (by assumption)]
    · rw [if_neg (by assumption)]
      exact ih h

theorem lookupE_eq_none_iff {l : List (List Nat × C)} {k : List Nat} :
    lookupE l k = none ↔ ∀ e ∈ l, e.1 ≠ k := by
  induction l with
  | nil => simp
  | cons e l ih =>
    rw [lookupE_cons]
    by_cases h : e.1 = k
    · simp [h]
    · simp [h, ih]

theorem lookupE_map_prepend (l : List (List Nat × C)) (a k : List Nat) :
    lookupE (l.map (fun e => (a ++ e.1, e.2))) (a ++ k) = lookupE l k := by
  induction l with
  | nil => simp
  | cons e l ih =>
    simp only [List.map_cons, lookupE_cons]
    by_cases h : e.1 = k
    · simp [h]
    · have hne : ¬(a ++ e.1 = a ++ k) := by simpa using h
      simp [h, hne, ih]

theorem lookupE_some_of_mem_of_nodup {l : List (List Nat × C)} {A B : List (List Nat × C)}
    {k : List Nat} {v : C} (hn : (l.map Prod.fst).Nodup) (hsplit : l = A ++ (k, v) :: B) :
    lookupE l k = some v := by
  subst hsplit
  have hk : lookupE (A) k = none := by
    rw [lookupE_eq_none_iff]
    intro e he hek
    have : k ∈ A.map Prod.fst := hek ▸ List.mem_map_of_mem _ he
    have hnotin := (List.nodup_append.1 (by simpa using hn)).2.2
    exact hnotin this (by simp)
  rw [lookupE_append_none hk, lookupE_cons, if_pos rfl]

theorem lookupE_middle_ne {A B : List (List Nat × C)} {k kk : List Nat} {v : C}
    (hne : kk ≠ k) : lookupE (A ++ (k, v) :: B) kk = lookupE (A ++ B) kk := by
  induction A with
  | nil => simp [lookupE_cons, Ne.symm hne]
  | cons e l ih => simp [lookupE_cons, ih]


/-- Follow a child-index path, returning the reached node and the
concatenation of the segments strictly above it (the starting node's own
segment included, the reached node's excluded). -/
def descend : TrieNode C → List Nat → Option (TrieNode C × List Nat)
  | n, [] => some (n, [])
  | n, i :: p =>
    match n.children[i]? with
    | some c => (descend c p).map (fun q => (q.1, n.segment ++ q.2))
    | none => none

/- ---------------------------------------------------------------------------
List decomposition helpers.
--------------------------------------------------------------------------- -/

theorem getElem?_decomp {α : Type} {l : List α} {i : Nat} {c : α} (h : l[i]? = some c) :
    l.take i ++ c :: l.drop (i + 1) = l := by
  induction l generalizing i with
  | nil => simp at h
  | cons x xs ih =>
    cases i with
    | zero =>
      simp at h
      simp [h]
    | succ j =>
      simp only [List.getElem?_cons_succ] at h
      simp only [List.take_succ_cons, List.drop_succ_cons, List.cons_append, List.cons.injEq,
        true_and]
      exact ih h

theorem set_decomp {α : Type} {l : List α} {i : Nat} (h : i < l.length) (a : α) :
    l.set i a = l.take i ++ a :: l.drop (i + 1) := by
  induction l generalizing i with
  | nil => simp at h
  | cons x xs ih =>
    cases i with
    | zero => simp
    | succ j =>
      simp only [List.length_cons] at h
      simp only [List.set_cons_succ, List.take_succ_cons, List.drop_succ_cons,
        List.cons_append, List.cons.injEq, true_and]
      exact ih (by omega)

theorem set_self_of_getElem? {α : Type} {l : List α} {i : Nat} {c : α} (h : l[i]? = some c) :
    l.set i c = l := by
  induction l generalizing i with
  | nil => simp at h
  | cons x xs ih =>
    cases i with
    | zero =>
      simp at h
      simp [h]
    | succ j =>
      simp only [List.getElem?_cons_succ] at h
      simp [ih h]

theorem insertIdx_decomp {α : Type} {l : List α} {i : Nat} (h : i ≤ l.length) (a : α) :
    l.insertIdx i a = l.take i ++ a :: l.drop i := by
  induction l generalizing i with
  | nil =>
    simp at h
    simp [h]
  | cons x xs ih =>
    cases i with
    | zero => simp
    | succ j =>
      simp only [List.length_cons] at h
      simp only [List.insertIdx_succ_cons, List.take_succ_cons, List.drop_succ_cons,
        List.cons_append, List.cons.injEq, true_and]
      exact ih (by omega)

/- ---------------------------------------------------------------------------
childFind, headsSorted and well-formedness characterizations.
--------------------------------------------------------------------------- -/

theorem childFind_inl_spec {b : Nat} {cs : List (TrieNode C)} {i : Nat} {m : TrieNode C}
    (h : childFind b cs = Sum.inl (i, m)) : cs[i]? = some m ∧ segHead m = b := by
  induction cs generalizing i with
  | nil => simp [childFind] at h
  | cons c cs ih =>
    simp only [childFind] at h
    split at h
    · cases hc : childFind b cs with
      | inl p =>
        rw [hc] at h
        obtain ⟨j, m2⟩ := p
        simp only [Sum.inl.injEq, Prod.mk.injEq] at h
        obtain ⟨hj, hm⟩ := h
        subst hm
        obtain ⟨h1, h2⟩ := ih hc
        constructor
        · rw [← hj]
          simpa using h1
        · exact h2
      | inr j => rw [hc] at h; simp at h
    · split at h
      · simp only [Sum.inl.injEq, Prod.mk.injEq] at h
        obtain ⟨hi, hm⟩ := h
        subst hm
        subst hi
        exact ⟨by simp, by assumption⟩
      · simp at h

theorem headsSorted_cons {c : TrieNode C} {cs : List (TrieNode C)}
    (h : headsSorted (c :: cs) = true) :
    headsSorted cs = true ∧ ∀ x ∈ cs, segHead c < segHead x := by
  induction cs generalizing c with
  | nil => exact ⟨rfl, by simp⟩
  | cons c2 cs ih =>
    simp only [headsSorted, Bool.and_eq_true, decide_eq_true_eq] at h
    obtain ⟨h1, h2⟩ := h
    obtain ⟨h3, h4⟩ := ih h2
    refine ⟨h2, ?_⟩
    intro x hx
    rcases List.mem_cons.1 hx with rfl | hx
    · exact h1
    · exact lt_trans h1 (h4 x hx)

theorem headsSorted_iff_pairwise {cs : List (TrieNode C)} :
    headsSorted cs = true ↔ List.Pairwise (fun a b => segHead a < segHead b) cs := by
  induction cs with
  | nil => simp [headsSorted]
  | cons c cs ih =>
    constructor
    · intro h
      obtain ⟨h1, h2⟩ := headsSorted_cons h
      exact List.Pairwise.cons h2 (ih.1 h1)
    · intro h
      rcases h with _ | ⟨hrel, hp⟩
      cases cs with
      | nil => rfl
      | cons c2 cs2 =>
        simp only [headsSorted, Bool.and_eq_true, decide_eq_true_eq]
        exact ⟨hrel _ (by simp), ih.2 hp⟩

theorem childFind_inr_spec {b : Nat} {cs : List (TrieNode C)} {i : Nat}
    (hs : headsSorted cs = true) (h : childFind b cs = Sum.inr i) :
    i ≤ cs.length ∧ (∀ c ∈ cs.take i, segHead c < b) ∧ ∀ c ∈ cs.drop i, b < segHead c := by
  induction cs generalizing i with
  | nil =>
    simp [childFind] at h
    simp [h]
  | cons c cs ih =>
    obtain ⟨hs1, hs2⟩ := headsSorted_cons hs
    simp only [childFind] at h
    split at h
    · cases hc : childFind b cs with
      | inl p => rw [hc] at h; obtain ⟨j, m2⟩ := p; simp at h
      | inr j =>
        rw [hc] at h
        simp only [Sum.inr.injEq] at h
        subst h
        obtain ⟨ih1, ih2, ih3⟩ := ih hs1 hc
        refine ⟨by simp; omega, ?_, ?_⟩
        · intro x hx
          rw [List.take_succ_cons] at hx
          rcases List.mem_cons.1 hx with rfl | hx
          · assumption
          · exact ih2 x hx
        · intro x hx
          rw [List.drop_succ_cons] at hx
          exact ih3 x hx
    · split at h
      · simp at h
      · simp only [Sum.inr.injEq] at h
        subst h
        refine ⟨by simp, by simp, ?_⟩
        intro x hx
        simp only [List.drop_zero] at hx
        rcases List.mem_cons.1 hx with rfl | hx
        · omega
        · exact lt_trans (by omega) (hs2 x hx)

theorem childFind_inr_not_mem {b : Nat} {cs : List (TrieNode C)} {i : Nat}
    (hs : headsSorted cs = true) (h : childFind b cs = Sum.inr i) :
    ∀ c ∈ cs, segHead c ≠ b := by
  obtain ⟨h1, h2, h3⟩ := childFind_inr_spec hs h
  intro c hc
  rw [← List.take_append_drop i cs] at hc
  rcases List.mem_append.1 hc with hc | hc
  · exact ne_of_lt (h2 c hc)
  · exact (ne_of_lt (h3 c hc)).symm

theorem WFlist_iff {cs : List (TrieNode C)} : WFlist cs = true ↔ ∀ c ∈ cs, WFc c = true := by
  induction cs with
  | nil => simp [WFlist]
  | cons c cs ih =>
    rw [WFlist]
    simp [ih]

theorem WFi_mk (seg : List Nat) (cs : List (TrieNode C)) (d : Option C) :
    WFi (TrieNode.mk seg cs d) = (headsSorted cs && WFlist cs) := rfl

theorem list_isEmpty_eq_false {α : Type} (l : List α) : (l.isEmpty = false) ↔ l ≠ [] := by
  cases l <;> simp

theorem WFc_iff {n : TrieNode C} :
    WFc n = true ↔
      n.segment ≠ [] ∧ (n.data.isSome = true ∨ n.children ≠ []) ∧ WFi n = true := by
  cases n with
  | mk seg cs d =>
    rw [WFc, WFi_mk]
    simp only [TrieNode.segment, TrieNode.data, TrieNode.children, Bool.and_eq_true,
      Bool.or_eq_true, Bool.not_eq_true', list_isEmpty_eq_false]
    tauto

theorem WFi_of_WFc {n : TrieNode C} (h : WFc n = true) : WFi n = true :=
  (WFc_iff.1 h).2.2

theorem WFi_child {n : TrieNode C} (h : WFi n = true) {c : TrieNode C}
    (hc : c ∈ n.children) : WFc c = true := by
  rw [WFi, Bool.and_eq_true] at h
  exact WFlist_iff.1 h.2 c hc

theorem WFi_sorted {n : TrieNode C} (h : WFi n = true) : headsSorted n.children = true := by
  rw [WFi, Bool.and_eq_true] at h
  exact h.1

/- ---------------------------------------------------------------------------
entries, len: equations and basic facts.
--------------------------------------------------------------------------- -/

theorem TrieNode.inductionOn {motive : TrieNode C → Prop}
    (h : ∀ seg cs d, (∀ c ∈ cs, motive c) → motive (TrieNode.mk seg cs d)) :
    ∀ n, motive n
  | .mk seg cs d => h seg cs d (fun c hc => TrieNode.inductionOn h c)
termination_by n => sizeOf n
decreasing_by
  have := List.sizeOf_lt_of_mem hc
  simp
  omega

theorem entries_mk (seg : List Nat) (cs : List (TrieNode C)) (d : Option C) :
    (TrieNode.mk seg cs d).entries =
      (match d with | some v => [(seg, v)] | none => []) ++
        (entriesList cs).map (fun e => (seg ++ e.1, e.2)) := by
  rw [TrieNode.entries.eq_def]

@[simp] theorem entriesList_nil : entriesList ([] : List (TrieNode C)) = [] := by
  rw [entriesList]

theorem entriesList_cons (c : TrieNode C) (cs : List (TrieNode C)) :
    entriesList (c :: cs) = c.entries ++ entriesList cs := by
  rw [entriesList]

theorem entriesList_append (l1 l2 : List (TrieNode C)) :
    entriesList (l1 ++ l2) = entriesList l1 ++ entriesList l2 := by
  induction l1 with
  | nil => simp
  | cons c cs ih => simp [entriesList_cons, ih]

theorem len_mk (seg : List Nat) (cs : List (TrieNode C)) (d : Option C) :
    (TrieNode.mk seg cs d).len = lenList cs + (if d.isSome then 1 else 0) := by
  rw [TrieNode.len]

@[simp] theorem lenList_nil : lenList ([] : List (TrieNode C)) = 0 := by
  rw [lenList]

theorem lenList_cons (c : TrieNode C) (cs : List (TrieNode C)) :
    lenList (c :: cs) = c.len + lenList cs := by
  rw [lenList]

theorem len_eq_entries_length (n : TrieNode C) : n.len = n.entries.length := by
  induction n using TrieNode.inductionOn with
  | _ seg cs d ih =>
    have hl : ∀ l : List (TrieNode C), (∀ c ∈ l, c.len = c.entries.length) →
        lenList l = (entriesList l).length := by
      intro l hml
      induction l with
      | nil => simp
      | cons c cs2 ihc =>
        rw [lenList_cons, entriesList_cons, List.length_append, hml c (by simp),
          ihc (fun x hx => hml x (by simp [hx]))]
    rw [len_mk, entries_mk, List.length_append, List.length_map, hl cs ih]
    cases d <;> simp [Nat.add_comm]

theorem entries_key_shape {n : TrieNode C} {e : List Nat × C} (h : e ∈ n.entries) :
    ∃ s, e.1 = n.segment ++ s := by
  cases n with
  | mk seg cs d =>
    rw [entries_mk] at h
    rcases List.mem_append.1 h with h | h
    · cases d with
      | none => simp at h
      | some v =>
        simp at h
        exact ⟨[], by simp [h]⟩
    · obtain ⟨e2, _, he⟩ := List.mem_map.1 h
      exact ⟨e2.1, by simp [← he]⟩

theorem entries_key_head {c : TrieNode C} (hw : WFc c = true) {e : List Nat × C}
    (h : e ∈ c.entries) : e.1 ≠ [] ∧ e.1.headD 0 = segHead c := by
  obtain ⟨s, hs⟩ := entries_key_shape h
  obtain ⟨hseg, _, _⟩ := WFc_iff.1 hw
  cases hcs : c.segment with
  | nil => exact absurd hcs hseg
  | cons a as =>
    refine ⟨by rw [hs, hcs]; simp, ?_⟩
    rw [hs]
    unfold segHead
    rw [hcs]
    simp

/-- A well-formed node stores at least one entry. -/
theorem entries_ne_nil_of_WFc {c : TrieNode C} (hw : WFc c = true) : c.entries ≠ [] := by
  induction c using TrieNode.inductionOn with
  | _ seg cs d ih =>
    obtain ⟨hseg, hvc, hwf⟩ := WFc_iff.1 hw
    rw [entries_mk]
    cases d with
    | some v => simp
    | none =>
      simp only [TrieNode.data, Option.isSome_none, Bool.false_eq_true, false_or,
        TrieNode.children] at hvc
      cases hcs : cs with
      | nil => exact absurd hcs hvc
      | cons c0 cs0 =>
        subst hcs
        have h0 : WFc c0 = true := WFi_child hwf (by simp)
        have h1 : c0.entries ≠ [] := ih c0 (by simp) h0
        simp only [List.nil_append, ne_eq, List.map_eq_nil_iff, entriesList_cons]
        intro hx
        rw [List.append_eq_nil] at hx
        exact h1 hx.1

/- ---------------------------------------------------------------------------
nodeAt / modifyAt / descend.
--------------------------------------------------------------------------- -/

@[simp] theorem nodeAt_nil (n : TrieNode C) : nodeAt n [] = n := rfl

theorem nodeAt_cons (n : TrieNode C) (i : Nat) (p : List Nat) :
    nodeAt n (i :: p) = nodeAt ((n.children[i]?).getD TrieNode.new) p := rfl

@[simp] theorem descend_nil (n : TrieNode C) : descend n [] = some (n, []) := rfl

theorem descend_cons (n : TrieNode C) (i : Nat) (p : List Nat) :
    descend n (i :: p) =
      match n.children[i]? with
      | some c => (descend c p).map (fun q => (q.1, n.segment ++ q.2))
      | none => none := rfl

theorem descend_cons_some {n : TrieNode C} {i : Nat} {c : TrieNode C}
    (h : n.children[i]? = some c) (p : List Nat) :
    descend n (i :: p) = (descend c p).map (fun q => (q.1, n.segment ++ q.2)) := by
  rw [descend_cons, h]

theorem descend_cons_none {n : TrieNode C} {i : Nat} (h : n.children[i]? = none)
    (p : List Nat) : descend n (i :: p) = none := by
  rw [descend_cons, h]

theorem descend_nodeAt {n : TrieNode C} {path : List Nat} {m : TrieNode C} {pre : List Nat}
    (h : descend n path = some (m, pre)) : nodeAt n path = m := by
  induction path generalizing n pre with
  | nil =>
    simp at h
    simp [h]
  | cons i p ih =>
    cases hc : n.children[i]? with
    | none => rw [descend_cons_none hc] at h; simp at h
    | some c =>
      rw [descend_cons_some hc] at h
      cases hd : descend c p with
      | none => rw [hd] at h; simp at h
      | some q =>
        rw [hd] at h
        obtain ⟨q1, q2⟩ := q
        simp at h
        obtain ⟨h1, h2⟩ := h
        subst h1
        rw [nodeAt_cons, hc]
        simp only [Option.getD_some]
        exact ih hd


/- ---------------------------------------------------------------------------
searchNode: branch reduction lemmas and arithmetic facts.  `cpl` below always
denotes `commonPrefixLen seg key.asRef`, the source's `prefix_size`.
--------------------------------------------------------------------------- -/

theorem searchNode_edge {seg : List Nat} {cs : List (TrieNode C)} {d : Option C}
    {key : SearchKey} (h : commonPrefixLen seg key.asRef ≠ seg.length) :
    searchNode (.mk seg cs d) key =
      .notFound [] (.edge (commonPrefixLen seg key.asRef))
        (key.consume (commonPrefixLen seg key.asRef)) := by
  rw [searchNode]
  rw [if_pos h]

theorem searchNode_step_found {seg : List Nat} {cs : List (TrieNode C)} {d : Option C}
    {key : SearchKey} {i : Nat} {c : TrieNode C} {path : List Nat} {k : SearchKey}
    (hcp : commonPrefixLen seg key.asRef = seg.length)
    (hemp : (key.consume (commonPrefixLen seg key.asRef)).isEmpty = false)
    (hcf : childFind (key.consume (commonPrefixLen seg key.asRef)).first cs = Sum.inl (i, c))
    (hrec : searchNode c (key.consume (commonPrefixLen seg key.asRef)) = .found path k) :
    searchNode (.mk seg cs d) key = .found (i :: path) k := by
  rw [searchNode]
  rw [if_neg (by simp [hcp])]
  rw [if_pos (by simp [hemp])]
  split
  case _ i2 c2 heq =>
    rw [hcf] at heq
    simp only [Sum.inl.injEq, Prod.mk.injEq] at heq
    obtain ⟨rfl, rfl⟩ := heq
    rw [hrec]
  case _ i2 heq =>
    rw [hcf] at heq
    simp at heq

theorem searchNode_step_notFound {seg : List Nat} {cs : List (TrieNode C)} {d : Option C}
    {key : SearchKey} {i : Nat} {c : TrieNode C} {path : List Nat} {pos : PosType}
    {left : SearchKey}
    (hcp : commonPrefixLen seg key.asRef = seg.length)
    (hemp : (key.consume (commonPrefixLen seg key.asRef)).isEmpty = false)
    (hcf : childFind (key.consume (commonPrefixLen seg key.asRef)).first cs = Sum.inl (i, c))
    (hrec : searchNode c (key.consume (commonPrefixLen seg key.asRef)) = .notFound path pos left) :
    searchNode (.mk seg cs d) key = .notFound (i :: path) pos left := by
  rw [searchNode]
  rw [if_neg (by simp [hcp])]
  rw [if_pos (by simp [hemp])]
  split
  case _ i2 c2 heq =>
    rw [hcf] at heq
    simp only [Sum.inl.injEq, Prod.mk.injEq] at heq
    obtain ⟨rfl, rfl⟩ := heq
    rw [hrec]
  case _ i2 heq =>
    rw [hcf] at heq
    simp at heq

theorem searchNode_child_miss {seg : List Nat} {cs : List (TrieNode C)} {d : Option C}
    {key : SearchKey} {i : Nat}
    (hcp : commonPrefixLen seg key.asRef = seg.length)
    (hemp : (key.consume (commonPrefixLen seg key.asRef)).isEmpty = false)
    (hcf : childFind (key.consume (commonPrefixLen seg key.asRef)).first cs = Sum.inr i) :
    searchNode (.mk seg cs d) key =
      .notFound [] (.child i) (key.consume (commonPrefixLen seg key.asRef)) := by
  rw [searchNode]
  rw [if_neg (by simp [hcp])]
  rw [if_pos (by simp [hemp])]
  split
  case _ i2 c2 heq =>
    rw [hcf] at heq
    simp at heq
  case _ i2 heq =>
    rw [hcf] at heq
    simp only [Sum.inr.injEq] at heq
    rw [heq]

theorem searchNode_leaf {seg : List Nat} {cs : List (TrieNode C)} {key : SearchKey}
    (hcp : commonPrefixLen seg key.asRef = seg.length)
    (hemp : (key.consume (commonPrefixLen seg key.asRef)).isEmpty = true) :
    searchNode (.mk seg cs (none : Option C)) key = .notFound [] .leaf ⟨[], 0⟩ := by
  rw [searchNode]
  rw [if_neg (by simp [hcp])]
  rw [if_neg (by simp [hemp])]
  rw [if_pos (by simp)]

theorem searchNode_found_self {seg : List Nat} {cs : List (TrieNode C)} {v : C}
    {key : SearchKey}
    (hcp : commonPrefixLen seg key.asRef = seg.length)
    (hemp : (key.consume (commonPrefixLen seg key.asRef)).isEmpty = true) :
    searchNode (.mk seg cs (some v)) key =
      .found [] (key.consume (commonPrefixLen seg key.asRef)) := by
  rw [searchNode]
  rw [if_neg (by simp [hcp])]
  rw [if_neg (by simp [hemp])]
  rw [if_neg (by simp)]

theorem consume_ok {key : SearchKey} (hok : key.offset ≤ key.base.length)
    {s : Nat} (hs : s ≤ key.asRef.length) : (key.consume s).offset ≤ key.base.length := by
  have := SearchKey.asRef_length key
  simp only [SearchKey.consume_offset]
  omega

theorem isEmpty_offset {k : SearchKey} (h : k.isEmpty = true) : k.offset = k.base.length := by
  simp only [SearchKey.isEmpty, beq_iff_eq] at h
  omega

/-- After a full segment match, the unconsumed key splits as the segment
followed by the still-unconsumed remainder. -/
theorem asRef_full_match {seg : List Nat} {key : SearchKey}
    (hcp : commonPrefixLen seg key.asRef = seg.length) :
    key.asRef = seg ++ (key.consume (commonPrefixLen seg key.asRef)).asRef := by
  have h1 := commonPrefixLen_take seg key.asRef
  rw [hcp, List.take_length] at h1
  rw [SearchKey.asRef_consume, hcp]
  conv_lhs => rw [← List.take_append_drop seg.length key.asRef]
  rw [← h1]

/-- A full segment match with an exhausted key means the remainder was
exactly the segment. -/
theorem asRef_full_exhausted {seg : List Nat} {key : SearchKey}
    (hok : key.offset ≤ key.base.length)
    (hcp : commonPrefixLen seg key.asRef = seg.length)
    (hemp : (key.consume (commonPrefixLen seg key.asRef)).isEmpty = true) :
    key.asRef = seg := by
  have h1 := asRef_full_match hcp
  have h2 : (key.consume (commonPrefixLen seg key.asRef)).asRef = [] := by
    have h3 := isEmpty_offset hemp
    simp only [SearchKey.consume_offset, SearchKey.consume_base] at h3
    simp only [SearchKey.asRef_consume, List.drop_eq_nil_iff, SearchKey.asRef_length]
    omega
  rw [h2] at h1
  simpa using h1

/-- An incomplete segment match: the prefix-length is a proper bound and the
remainder splits at it. -/
theorem edge_facts {seg : List Nat} {key : SearchKey}
    (hcp : commonPrefixLen seg key.asRef ≠ seg.length) :
    commonPrefixLen seg key.asRef < seg.length ∧
      key.asRef = seg.take (commonPrefixLen seg key.asRef) ++
        (key.consume (commonPrefixLen seg key.asRef)).asRef := by
  have h1 := commonPrefixLen_le_left seg key.asRef
  refine ⟨by omega, ?_⟩
  rw [SearchKey.asRef_consume]
  conv_lhs => rw [← List.take_append_drop (commonPrefixLen seg key.asRef) key.asRef]
  rw [commonPrefixLen_take seg key.asRef]

theorem first_of_not_isEmpty {key : SearchKey} (hok : key.offset ≤ key.base.length)
    (hemp : key.isEmpty = false) :
    key.asRef ≠ [] ∧ key.first = key.asRef.headD 0 := by
  have h1 := (SearchKey.isEmpty_false_iff hok).1 hemp
  refine ⟨h1, ?_⟩
  apply SearchKey.first_eq_headD
  simp only [SearchKey.isEmpty, beq_iff_eq] at hemp
  have h2 := SearchKey.asRef_length key
  have h3 : key.asRef.length ≠ 0 := by
    intro hx
    exact h1 (List.length_eq_zero.1 hx)
  omega

/- ---------------------------------------------------------------------------
Shape of a successful search.
--------------------------------------------------------------------------- -/

/-- If the search finds a node, the recorded path is valid, the segments along
it spell out the searched key, the key is fully consumed, and — decisive for
the `unwrap`s of the source — the found node holds a value. -/
theorem search_found_shape :
    ∀ (n : TrieNode C) (key : SearchKey) (path : List Nat) (k' : SearchKey),
      key.offset ≤ key.base.length → searchNode n key = .found path k' →
      k'.base = key.base ∧ k'.offset = key.base.length ∧
        ∃ m pre, descend n path = some (m, pre) ∧ key.asRef = pre ++ m.segment ∧
          m.data.isSome = true := by
  intro n
  induction n using TrieNode.inductionOn with
  | _ seg cs d ih =>
    intro key path k' hok h
    by_cases hcp : commonPrefixLen seg key.asRef = seg.length
    case neg =>
      rw [searchNode_edge hcp] at h
      simp at h
    case pos =>
      have hok' : (key.consume (commonPrefixLen seg key.asRef)).offset ≤ key.base.length :=
        consume_ok hok (hcp ▸ commonPrefixLen_le_right seg key.asRef)
      by_cases hemp : (key.consume (commonPrefixLen seg key.asRef)).isEmpty = true
      case pos =>
        cases hd : d with
        | none =>
          subst hd
          rw [searchNode_leaf hcp hemp] at h
          simp at h
        | some v =>
          subst hd
          rw [searchNode_found_self hcp hemp] at h
          simp only [SearchResult.found.injEq] at h
          obtain ⟨hpath, hk⟩ := h
          subst hpath
          subst hk
          refine ⟨rfl, ?_, ⟨.mk seg cs (some v), [], by simp, ?_, by simp⟩⟩
          · simpa using isEmpty_offset hemp
          · simpa using asRef_full_exhausted hok hcp hemp
      case neg =>
        rw [Bool.not_eq_true] at hemp
        cases hcf : childFind (key.consume (commonPrefixLen seg key.asRef)).first cs with
        | inr i =>
          rw [searchNode_child_miss hcp hemp hcf] at h
          simp at h
        | inl p =>
          obtain ⟨i, c⟩ := p
          cases hrec : searchNode c (key.consume (commonPrefixLen seg key.asRef)) with
          | notFound path2 pos2 left2 =>
            rw [searchNode_step_notFound hcp hemp hcf hrec] at h
            simp at h
          | found path2 k2 =>
            rw [searchNode_step_found hcp hemp hcf hrec] at h
            simp only [SearchResult.found.injEq] at h
            obtain ⟨hpath, hk⟩ := h
            subst hpath
            subst hk
            have hmem : c ∈ cs := childFind_inl_mem hcf
            obtain ⟨hb, ho, m, pre, hdesc, hsegs, hsome⟩ :=
              ih c hmem (key.consume (commonPrefixLen seg key.asRef)) path2 k2 hok' hrec
            refine ⟨by simpa using hb, by simpa using ho, m, seg ++ pre, ?_, ?_, hsome⟩
            · rw [descend_cons_some (childFind_inl_spec hcf).1, hdesc]
              simp
            · rw [asRef_full_match hcp, hsegs, List.append_assoc]


/- ---------------------------------------------------------------------------
Shape of an unsuccessful search.
--------------------------------------------------------------------------- -/

/-- If the search misses, the recorded path is valid, and the recorded
position describes exactly how the remainder `r` of the key relates to the
designated node: a mid-segment divergence (`edge`), a missing child byte
(`child`), or a valueless exact match (`leaf`, where the source replaces the
left-over key by the empty one). -/
theorem search_notFound_shape :
    ∀ (n : TrieNode C) (key : SearchKey) (path : List Nat) (pos : PosType) (left : SearchKey),
      key.offset ≤ key.base.length → searchNode n key = .notFound path pos left →
      ∃ m pre r, descend n path = some (m, pre) ∧ key.asRef = pre ++ r ∧
        (path ≠ [] → r ≠ [] ∧ r.headD 0 = segHead m) ∧
        (match pos with
         | .edge p => p = commonPrefixLen m.segment r ∧ p ≠ m.segment.length ∧
             left.base = key.base ∧ left.offset ≤ left.base.length ∧ left.asRef = r.drop p
         | .child i => r = m.segment ++ left.asRef ∧ left.asRef ≠ [] ∧
             childFind (left.asRef.headD 0) m.children = Sum.inr i ∧
             left.base = key.base ∧ left.offset ≤ left.base.length
         | .leaf => r = m.segment ∧ m.data = none ∧ left = ⟨[], 0⟩) := by
  intro n
  induction n using TrieNode.inductionOn with
  | _ seg cs d ih =>
    intro key path pos left hok h
    by_cases hcp : commonPrefixLen seg key.asRef = seg.length
    case neg =>
      rw [searchNode_edge hcp] at h
      simp only [SearchResult.notFound.injEq] at h
      obtain ⟨hpath, hpos, hleft⟩ := h
      subst hpath
      subst hpos
      subst hleft
      refine ⟨.mk seg cs d, [], key.asRef, by simp, by simp, by simp, ?_⟩
      refine ⟨by simp, by simpa using hcp, rfl, ?_, ?_⟩
      · exact consume_ok hok (commonPrefixLen_le_right seg key.asRef)
      · rw [SearchKey.asRef_consume]
    case pos =>
      have hok' : (key.consume (commonPrefixLen seg key.asRef)).offset ≤ key.base.length :=
        consume_ok hok (hcp ▸ commonPrefixLen_le_right seg key.asRef)
      by_cases hemp : (key.consume (commonPrefixLen seg key.asRef)).isEmpty = true
      case pos =>
        cases hd : d with
        | some v =>
          subst hd
          rw [searchNode_found_self hcp hemp] at h
          simp at h
        | none =>
          subst hd
          rw [searchNode_leaf hcp hemp] at h
          simp only [SearchResult.notFound.injEq] at h
          obtain ⟨hpath, hpos, hleft⟩ := h
          subst hpath
          subst hpos
          subst hleft
          refine ⟨.mk seg cs none, [], seg, by simp, ?_, by simp, by simp⟩
          simpa using asRef_full_exhausted hok hcp hemp
      case neg =>
        rw [Bool.not_eq_true] at hemp
        obtain ⟨hne, hfst⟩ := first_of_not_isEmpty hok' hemp
        cases hcf : childFind (key.consume (commonPrefixLen seg key.asRef)).first cs with
        | inr i =>
          rw [searchNode_child_miss hcp hemp hcf] at h
          simp only [SearchResult.notFound.injEq] at h
          obtain ⟨hpath, hpos, hleft⟩ := h
          subst hpath
          subst hpos
          subst hleft
          refine ⟨.mk seg cs d, [], key.asRef, by simp, by simp, by simp, ?_⟩
          refine ⟨by simpa using asRef_full_match hcp, hne, ?_, rfl, hok'⟩
          rw [hfst] at hcf
          exact hcf
        | inl p =>
          obtain ⟨i, c⟩ := p
          cases hrec : searchNode c (key.consume (commonPrefixLen seg key.asRef)) with
          | found path2 k2 =>
            rw [searchNode_step_found hcp hemp hcf hrec] at h
            simp at h
          | notFound path2 pos2 left2 =>
            rw [searchNode_step_notFound hcp hemp hcf hrec] at h
            simp only [SearchResult.notFound.injEq] at h
            obtain ⟨hpath, hpos, hleft⟩ := h
            subst hpath
            subst hpos
            subst hleft
            have hmem : c ∈ cs := childFind_inl_mem hcf
            obtain ⟨m, pre2, r2, hdesc, hsplit, hhead, hposf⟩ :=
              ih c hmem (key.consume (commonPrefixLen seg key.asRef)) path2 pos2 left2 hok' hrec
            refine ⟨m, seg ++ pre2, r2, ?_, ?_, ?_, ?_⟩
            · rw [descend_cons_some (childFind_inl_spec hcf).1, hdesc]
              simp
            · rw [asRef_full_match hcp, hsplit, List.append_assoc]
            · intro _
              cases hp2 : path2 with
              | cons j p2 =>
                exact hhead (by simp [hp2])
              | nil =>
                subst hp2
                rw [descend_nil] at hdesc
                simp only [Option.some.injEq, Prod.mk.injEq] at hdesc
                obtain ⟨hm, hpre⟩ := hdesc
                subst hm
                subst hpre
                simp only [List.nil_append] at hsplit
                rw [← hsplit]
                exact ⟨hne, by rw [← hfst, (childFind_inl_spec hcf).2]⟩
            · cases pos2 with
              | edge p =>
                obtain ⟨h1, h2, h3, h4, h5⟩ := hposf
                exact ⟨h1, h2, by simpa using h3, h4, h5⟩
              | child j =>
                obtain ⟨h1, h2, h3, h4, h5⟩ := hposf
                exact ⟨h1, h2, h3, by simpa using h4, h5⟩
              | leaf => exact hposf


/- ---------------------------------------------------------------------------
Entries of child lists: membership and head discrimination.
--------------------------------------------------------------------------- -/

theorem mem_entriesList {cs : List (TrieNode C)} {e : List Nat × C} :
    e ∈ entriesList cs ↔ ∃ c ∈ cs, e ∈ c.entries := by
  induction cs with
  | nil => simp
  | cons c cs ih =>
    rw [entriesList_cons]
    simp only [List.mem_append, ih, List.mem_cons]
    constructor
    · rintro (h | ⟨c2, hc2, he⟩)
      · exact ⟨c, Or.inl rfl, h⟩
      · exact ⟨c2, Or.inr hc2, he⟩
    · rintro ⟨c2, hc2 | hc2, he⟩
      · subst hc2
        exact Or.inl he
      · exact Or.inr ⟨c2, hc2, he⟩

theorem isPre_head {p k : List Nat} (h : isPre p k = true) (hne : p ≠ []) :
    p.headD 0 = k.headD 0 := by
  obtain ⟨s, rfl⟩ := isPre_iff_append.1 h
  cases p with
  | nil => exact absurd rfl hne
  | cons a as => simp

theorem getD_append_left {a b : List Nat} {i : Nat} (h : i < a.length) :
    (a ++ b).getD i 0 = a.getD i 0 := by
  rw [List.getD_eq_getElem?_getD, List.getD_eq_getElem?_getD, List.getElem?_append_left h]

/-- No entry below a child list whose first bytes all differ from the head of
a non-empty remainder can match that remainder. -/
theorem entriesList_lookup_none {cs : List (TrieNode C)}
    (hwl : ∀ c ∈ cs, WFc c = true) {q : List Nat} (hne : q ≠ [])
    (hnb : ∀ c ∈ cs, segHead c ≠ q.headD 0) :
    lookupE (entriesList cs) q = none := by
  rw [lookupE_eq_none_iff]
  intro e he
  obtain ⟨c, hc, hec⟩ := mem_entriesList.1 he
  obtain ⟨hk1, hk2⟩ := entries_key_head (hwl c hc) hec
  intro hx
  exact hnb c hc (by rw [← hk2, hx])

theorem entriesList_countP_zero {cs : List (TrieNode C)}
    (hwl : ∀ c ∈ cs, WFc c = true) {q : List Nat} (hne : q ≠ [])
    (hnb : ∀ c ∈ cs, segHead c ≠ q.headD 0) :
    (entriesList cs).countP (fun e => isPre q e.1) = 0 := by
  rw [List.countP_eq_zero]
  intro e he
  obtain ⟨c, hc, hec⟩ := mem_entriesList.1 he
  obtain ⟨hk1, hk2⟩ := entries_key_head (hwl c hc) hec
  simp only [Bool.not_eq_true]
  cases hp : isPre q e.1 with
  | false => rfl
  | true => exact absurd (by rw [← hk2, ← isPre_head hp hne]) (hnb c hc)

/-- Looking up a remainder whose head selects child `c` only sees `c`'s
entries. -/
theorem entriesList_lookup_child {cs : List (TrieNode C)}
    (hs : headsSorted cs = true) (hwl : ∀ x ∈ cs, WFc x = true)
    {b i : Nat} {c : TrieNode C} (hcf : childFind b cs = Sum.inl (i, c))
    {q : List Nat} (hne : q ≠ []) (hq : q.headD 0 = b) :
    lookupE (entriesList cs) q = lookupE c.entries q := by
  induction cs generalizing i with
  | nil => simp [childFind] at hcf
  | cons c0 cs ih =>
    obtain ⟨hs1, hs2⟩ := headsSorted_cons hs
    rw [entriesList_cons]
    simp only [childFind] at hcf
    split at hcf
    · cases hc : childFind b cs with
      | inr j => rw [hc] at hcf; simp at hcf
      | inl p =>
        rw [hc] at hcf
        obtain ⟨j, c2⟩ := p
        simp only [Sum.inl.injEq, Prod.mk.injEq] at hcf
        obtain ⟨hj, hc2⟩ := hcf
        subst hc2
        rw [lookupE_append_none, ih hs1 (fun x hx => hwl x (by simp [hx])) hc]
        rw [lookupE_eq_none_iff]
        intro e he hx
        obtain ⟨hk1, hk2⟩ := entries_key_head (hwl c0 (by simp)) he
        rw [hx] at hk2
        rw [hq] at hk2
        omega
    · split at hcf
      · simp only [Sum.inl.injEq, Prod.mk.injEq] at hcf
        obtain ⟨hi, hc0⟩ := hcf
        subst hc0
        cases hl : lookupE c0.entries q with
        | some v => rw [lookupE_append_some hl]
        | none =>
          rw [lookupE_append_none hl]
          rw [entriesList_lookup_none (fun x hx => hwl x (by simp [hx])) hne]
          intro x hx
          have hlt : segHead c0 < segHead x := hs2 x hx
          rw [hq]
          omega
      · simp at hcf

theorem entriesList_countP_child {cs : List (TrieNode C)}
    (hs : headsSorted cs = true) (hwl : ∀ x ∈ cs, WFc x = true)
    {b i : Nat} {c : TrieNode C} (hcf : childFind b cs = Sum.inl (i, c))
    {q : List Nat} (hne : q ≠ []) (hq : q.headD 0 = b) :
    (entriesList cs).countP (fun e => isPre q e.1) =
      c.entries.countP (fun e => isPre q e.1) := by
  induction cs generalizing i with
  | nil => simp [childFind] at hcf
  | cons c0 cs ih =>
    obtain ⟨hs1, hs2⟩ := headsSorted_cons hs
    rw [entriesList_cons, List.countP_append]
    simp only [childFind] at hcf
    split at hcf
    · cases hc : childFind b cs with
      | inr j => rw [hc] at hcf; simp at hcf
      | inl p =>
        rw [hc] at hcf
        obtain ⟨j, c2⟩ := p
        simp only [Sum.inl.injEq, Prod.mk.injEq] at hcf
        obtain ⟨hj, hc2⟩ := hcf
        subst hc2
        rw [ih hs1 (fun x hx => hwl x (by simp [hx])) hc]
        have hz : c0.entries.countP (fun e => isPre q e.1) = 0 := by
          rw [List.countP_eq_zero]
          intro e he
          obtain ⟨hk1, hk2⟩ := entries_key_head (hwl c0 (by simp)) he
          simp only [Bool.not_eq_true]
          cases hp : isPre q e.1 with
          | false => rfl
          | true =>
            have := isPre_head hp hne
            rw [this, hk2] at hq
            omega
        omega
    · split at hcf
      · simp only [Sum.inl.injEq, Prod.mk.injEq] at hcf
        obtain ⟨hi, hc0⟩ := hcf
        subst hc0
        have hz : (entriesList cs).countP (fun e => isPre q e.1) = 0 := by
          apply entriesList_countP_zero (fun x hx => hwl x (by simp [hx])) hne
          intro x hx
          have hlt : segHead c0 < segHead x := hs2 x hx
          rw [hq]
          omega
        omega
      · simp at hcf

theorem notFoundPrefixLen_cons (n : TrieNode C) (i : Nat) (p : List Nat) (pos : PosType)
    (left : SearchKey) :
    notFoundPrefixLen n (i :: p) pos left =
      notFoundPrefixLen ((n.children[i]?).getD TrieNode.new) p pos left := by
  cases pos <;> rfl


/- ---------------------------------------------------------------------------
The search/entries correspondence.
--------------------------------------------------------------------------- -/

theorem isEmpty_asRef {k : SearchKey} (h : k.isEmpty = true) : k.asRef = [] := by
  have h1 := isEmpty_offset h
  simp [SearchKey.asRef, h1]

/-- How `get`-like callers interpret a search result (the value behind the
found pointer). -/
def getInterp (n : TrieNode C) : SearchResult C → Option C
  | .found path _ => (nodeAt n path).data
  | .notFound _ _ _ => none

/-- How `prefix_len` interprets a search result (`Found::len` /
`NotFound::prefix_len`). -/
def lenInterp (n : TrieNode C) : SearchResult C → Nat
  | .found path _ => (nodeAt n path).len
  | .notFound path pos left => notFoundPrefixLen n path pos left

@[simp] theorem getInterp_found (n : TrieNode C) (path : List Nat) (k : SearchKey) :
    getInterp n (.found path k) = (nodeAt n path).data := rfl

@[simp] theorem getInterp_notFound (n : TrieNode C) (path : List Nat) (pos : PosType)
    (left : SearchKey) : getInterp n (.notFound path pos left) = none := rfl

@[simp] theorem lenInterp_found (n : TrieNode C) (path : List Nat) (k : SearchKey) :
    lenInterp n (.found path k) = (nodeAt n path).len := rfl

@[simp] theorem lenInterp_notFound (n : TrieNode C) (path : List Nat) (pos : PosType)
    (left : SearchKey) :
    lenInterp n (.notFound path pos left) = notFoundPrefixLen n path pos left := rfl

theorem countP_ext {l : List (List Nat × C)} {p q : List Nat × C → Bool}
    (h : ∀ e ∈ l, p e = q e) : l.countP p = l.countP q := by
  induction l with
  | nil => simp
  | cons e l ih =>
    rw [List.countP_cons, List.countP_cons, h e (by simp), ih (fun x hx => h x (by simp [hx]))]

theorem entries_mk_none (seg : List Nat) (cs : List (TrieNode C)) :
    (TrieNode.mk seg cs (none : Option C)).entries =
      (entriesList cs).map (fun e => (seg ++ e.1, e.2)) := by
  rw [entries_mk]
  rfl

theorem entries_mk_some (seg : List Nat) (cs : List (TrieNode C)) (v : C) :
    (TrieNode.mk seg cs (some v)).entries =
      (seg, v) :: (entriesList cs).map (fun e => (seg ++ e.1, e.2)) := by
  rw [entries_mk]
  rfl

theorem ne_append_right {seg r' : List Nat} (hne : r' ≠ []) : seg ≠ seg ++ r' := by
  intro hx
  have h1 := congrArg List.length hx
  rw [List.length_append] at h1
  have h2 : r'.length = 0 := by omega
  exact hne (List.length_eq_zero.1 h2)

theorem isPre_append_ne {seg r' : List Nat} (hne : r' ≠ []) :
    isPre (seg ++ r') seg = false := by
  cases hp : isPre (seg ++ r') seg with
  | false => rfl
  | true =>
    have h1 := isPre_length_le hp
    rw [List.length_append] at h1
    have h2 : r'.length = 0 := by omega
    exact absurd (List.length_eq_zero.1 h2) hne

theorem countP_map_prepend (l : List (List Nat × C)) (seg q : List Nat) :
    (l.map (fun e => (seg ++ e.1, e.2))).countP (fun e => isPre (seg ++ q) e.1) =
      l.countP (fun e => isPre q e.1) := by
  rw [List.countP_map]
  apply countP_ext
  intro e he
  simp only [Function.comp_apply, isPre_append_left]

theorem entries_map_lookup_self_none {seg : List Nat} {cs : List (TrieNode C)}
    (hwl : ∀ x ∈ cs, WFc x = true) :
    lookupE ((entriesList cs).map (fun e => (seg ++ e.1, e.2))) seg = none := by
  rw [lookupE_eq_none_iff]
  intro e he hx
  obtain ⟨e2, he2, hee⟩ := List.mem_map.1 he
  obtain ⟨c2, hc2, hec2⟩ := mem_entriesList.1 he2
  obtain ⟨hk1, _⟩ := entries_key_head (hwl c2 hc2) hec2
  rw [← hee] at hx
  simp only at hx
  exact ne_append_right hk1 hx.symm

/-- At a node whose remainder misses every child head, neither a lookup of an
extension nor the extension prefix count sees anything. -/
theorem entries_miss {seg : List Nat} {cs : List (TrieNode C)} {d : Option C}
    (hwl : ∀ x ∈ cs, WFc x = true) {r' : List Nat} (hne : r' ≠ [])
    (hnb : ∀ x ∈ cs, segHead x ≠ r'.headD 0) :
    lookupE (TrieNode.mk seg cs d).entries (seg ++ r') = none ∧
      (TrieNode.mk seg cs d).entries.countP (fun e => isPre (seg ++ r') e.1) = 0 := by
  have hmap_lk : lookupE ((entriesList cs).map (fun e => (seg ++ e.1, e.2)))
      (seg ++ r') = none := by
    rw [lookupE_map_prepend]
    exact entriesList_lookup_none hwl hne hnb
  have hmap_ct : ((entriesList cs).map (fun e => (seg ++ e.1, e.2))).countP
      (fun e => isPre (seg ++ r') e.1) = 0 := by
    rw [countP_map_prepend]
    exact entriesList_countP_zero hwl hne hnb
  cases d with
  | none =>
    rw [entries_mk_none]
    exact ⟨hmap_lk, hmap_ct⟩
  | some v =>
    rw [entries_mk_some]
    refine ⟨?_, ?_⟩
    · rw [lookupE_cons, if_neg (ne_append_right hne)]
      exact hmap_lk
    · rw [List.countP_cons, hmap_ct]
      have hz : isPre (seg ++ r') (seg, v).1 = false := isPre_append_ne hne
      simp [hz]

/-- At an exact match (remainder = segment) the lookup is the node's own
value and the prefix count is the whole subtree. -/
theorem entries_exact {seg : List Nat} {cs : List (TrieNode C)} {d : Option C}
    (hwl : ∀ x ∈ cs, WFc x = true) :
    lookupE (TrieNode.mk seg cs d).entries seg = d ∧
      (TrieNode.mk seg cs d).entries.countP (fun e => isPre seg e.1) =
        (TrieNode.mk seg cs d).entries.length := by
  refine ⟨?_, ?_⟩
  · cases d with
    | none =>
      rw [entries_mk_none]
      exact entries_map_lookup_self_none hwl
    | some v =>
      rw [entries_mk_some, lookupE_cons, if_pos rfl]
  · rw [List.countP_eq_length]
    intro e he
    obtain ⟨s, hes⟩ := entries_key_shape he
    show isPre seg e.1 = true
    rw [hes]
    simpa using isPre_append_self seg s

/-- Descending into the child selected by the head of the remainder changes
neither the lookup nor the prefix count. -/
theorem entries_step {seg : List Nat} {cs : List (TrieNode C)} {d : Option C}
    (hs : headsSorted cs = true) (hwl : ∀ x ∈ cs, WFc x = true)
    {b i : Nat} {c : TrieNode C} (hcf : childFind b cs = Sum.inl (i, c))
    {r' : List Nat} (hne : r' ≠ []) (hq : r'.headD 0 = b) :
    lookupE (TrieNode.mk seg cs d).entries (seg ++ r') = lookupE c.entries r' ∧
      (TrieNode.mk seg cs d).entries.countP (fun e => isPre (seg ++ r') e.1) =
        c.entries.countP (fun e => isPre r' e.1) := by
  have hmap_lk : lookupE ((entriesList cs).map (fun e => (seg ++ e.1, e.2)))
      (seg ++ r') = lookupE c.entries r' := by
    rw [lookupE_map_prepend]
    exact entriesList_lookup_child hs hwl hcf hne hq
  have hmap_ct : ((entriesList cs).map (fun e => (seg ++ e.1, e.2))).countP
      (fun e => isPre (seg ++ r') e.1) = c.entries.countP (fun e => isPre r' e.1) := by
    rw [countP_map_prepend]
    exact entriesList_countP_child hs hwl hcf hne hq
  cases d with
  | none =>
    rw [entries_mk_none]
    exact ⟨hmap_lk, hmap_ct⟩
  | some v =>
    rw [entries_mk_some]
    refine ⟨?_, ?_⟩
    · rw [lookupE_cons, if_neg (ne_append_right hne)]
      exact hmap_lk
    · rw [List.countP_cons, hmap_ct]
      have hz : isPre (seg ++ r') (seg, v).1 = false := isPre_append_ne hne
      simp [hz]

@[simp] theorem notFoundPrefixLen_edge (t : TrieNode C) (path : List Nat) (p : Nat)
    (left : SearchKey) :
    notFoundPrefixLen t path (.edge p) left =
      if left.isEmpty then (nodeAt t path).len else 0 := rfl

@[simp] theorem notFoundPrefixLen_child_pos (t : TrieNode C) (path : List Nat) (i : Nat)
    (left : SearchKey) : notFoundPrefixLen t path (.child i) left = 0 := rfl

@[simp] theorem notFoundPrefixLen_leaf (t : TrieNode C) (path : List Nat)
    (left : SearchKey) : notFoundPrefixLen t path .leaf left = (nodeAt t path).len := rfl

/-- The central correspondence: on a well-formed node, the search interprets
the entry list — the found node's value is the association-list lookup of the
remainder, and the source's `prefix_len` interpretation counts exactly the
stored keys extending the remainder. -/
theorem search_master :
    ∀ (n : TrieNode C) (key : SearchKey),
      WFi n = true → key.offset ≤ key.base.length →
      getInterp n (searchNode n key) = lookupE n.entries key.asRef ∧
      lenInterp n (searchNode n key) =
        n.entries.countP (fun e => isPre key.asRef e.1) := by
  intro n
  induction n using TrieNode.inductionOn with
  | _ seg cs d ih =>
    intro key hw hok
    have hs : headsSorted cs = true := by
      have h1 := WFi_sorted hw
      simpa using h1
    have hwl : ∀ x ∈ cs, WFc x = true := by
      intro x hx
      exact WFi_child hw (by simpa using hx)
    by_cases hcp : commonPrefixLen seg key.asRef = seg.length
    case neg =>
      rw [searchNode_edge hcp]
      obtain ⟨hlt, hsplit⟩ := edge_facts hcp
      refine ⟨?_, ?_⟩
      · rw [getInterp_notFound]
        symm
        rw [lookupE_eq_none_iff]
        intro e he hx
        obtain ⟨s, hes⟩ := entries_key_shape he
        apply hcp
        rw [← hx, hes]
        simpa using commonPrefixLen_append seg s
      · rw [lenInterp_notFound, notFoundPrefixLen_edge]
        by_cases hemp : (key.consume (commonPrefixLen seg key.asRef)).isEmpty = true
        case pos =>
          obtain ⟨j, hasr⟩ : ∃ j, key.asRef = seg.take j :=
            ⟨commonPrefixLen seg key.asRef,
              by conv_lhs => rw [hsplit, isEmpty_asRef hemp, List.append_nil]⟩
          have hall : (TrieNode.mk seg cs d).entries.countP
              (fun e => isPre key.asRef e.1) = (TrieNode.mk seg cs d).entries.length := by
            rw [List.countP_eq_length]
            intro e he
            obtain ⟨s, hes⟩ := entries_key_shape he
            show isPre key.asRef e.1 = true
            rw [hasr, hes]
            simp only [TrieNode.segment]
            exact isPre_trans (isPre_take seg j) (isPre_append_self seg s)
          rw [hall, if_pos hemp, nodeAt_nil, len_eq_entries_length]
        case neg =>
          rw [Bool.not_eq_true] at hemp
          have hok2 : (key.consume (commonPrefixLen seg key.asRef)).offset ≤ key.base.length :=
            consume_ok hok (commonPrefixLen_le_right seg key.asRef)
          obtain ⟨hne2, _⟩ := first_of_not_isEmpty hok2 hemp
          have hlt2 : commonPrefixLen seg key.asRef < key.asRef.length := by
            have h1 := commonPrefixLen_le_left seg key.asRef
            have h2 := congrArg List.length hsplit
            simp only [List.length_append, List.length_take] at h2
            have h3 : (key.consume (commonPrefixLen seg key.asRef)).asRef.length ≠ 0 := by
              intro hx
              exact hne2 (List.length_eq_zero.1 hx)
            omega
          have hdiv := commonPrefixLen_getD_ne hlt hlt2
          have hz : (TrieNode.mk seg cs d).entries.countP
              (fun e => isPre key.asRef e.1) = 0 := by
            rw [List.countP_eq_zero]
            intro e he
            obtain ⟨s, hes⟩ := entries_key_shape he
            simp only [Bool.not_eq_true]
            cases hp : isPre key.asRef e.1 with
            | false => rfl
            | true =>
              exfalso
              apply hdiv
              rw [isPre_getD hp hlt2, hes]
              simp only [TrieNode.segment] at hlt ⊢
              rw [getD_append_left hlt]
          rw [hz, if_neg (by simp [hemp])]
    case pos =>
      have hok' : (key.consume (commonPrefixLen seg key.asRef)).offset ≤ key.base.length :=
        consume_ok hok (hcp ▸ commonPrefixLen_le_right seg key.asRef)
      by_cases hemp : (key.consume (commonPrefixLen seg key.asRef)).isEmpty = true
      case pos =>
        have hasr : key.asRef = seg := asRef_full_exhausted hok hcp hemp
        obtain ⟨hexl, hexc⟩ := @entries_exact C seg cs d hwl
        cases hd : d with
        | none =>
          subst hd
          rw [searchNode_leaf hcp hemp]
          refine ⟨?_, ?_⟩
          · rw [getInterp_notFound, hasr, hexl]
          · rw [lenInterp_notFound, notFoundPrefixLen_leaf, nodeAt_nil, hasr, hexc,
              len_eq_entries_length]
        | some v =>
          subst hd
          rw [searchNode_found_self hcp hemp]
          refine ⟨?_, ?_⟩
          · rw [getInterp_found, nodeAt_nil, hasr, hexl]
            simp
          · rw [lenInterp_found, nodeAt_nil, hasr, hexc, len_eq_entries_length]
      case neg =>
        rw [Bool.not_eq_true] at hemp
        obtain ⟨hne2, hfst⟩ := first_of_not_isEmpty hok' hemp
        have hsplit : key.asRef = seg ++ (key.consume (commonPrefixLen seg key.asRef)).asRef :=
          asRef_full_match hcp
        cases hcf : childFind (key.consume (commonPrefixLen seg key.asRef)).first cs with
        | inr i =>
          rw [searchNode_child_miss hcp hemp hcf]
          have hnb : ∀ x ∈ cs, segHead x ≠
              (key.consume (commonPrefixLen seg key.asRef)).asRef.headD 0 := by
            have h1 := childFind_inr_not_mem hs hcf
            intro x hx
            rw [← hfst]
            exact h1 x hx
          obtain ⟨hm1, hm2⟩ := @entries_miss C seg cs d hwl _ hne2 hnb
          refine ⟨?_, ?_⟩
          · rw [getInterp_notFound, hsplit, hm1]
          · rw [lenInterp_notFound, notFoundPrefixLen_child_pos, hsplit, hm2]
        | inl p =>
          obtain ⟨i, c⟩ := p
          have hmem : c ∈ cs := childFind_inl_mem hcf
          have hwc : WFc c = true := hwl c hmem
          have hwc2 : WFi c = true := WFi_of_WFc hwc
          have hhead : (key.consume (commonPrefixLen seg key.asRef)).asRef.headD 0 =
              (key.consume (commonPrefixLen seg key.asRef)).first := hfst.symm
          have hstep := @entries_step C seg cs d hs hwl _ i c hcf _ hne2 hhead
          obtain ⟨ihg, ihc⟩ := ih c hmem (key.consume (commonPrefixLen seg key.asRef)) hwc2 hok'
          cases hrec : searchNode c (key.consume (commonPrefixLen seg key.asRef)) with
          | found path2 k2 =>
            rw [searchNode_step_found hcp hemp hcf hrec]
            rw [hrec, getInterp_found] at ihg
            rw [hrec, lenInterp_found] at ihc
            have hna : nodeAt (TrieNode.mk seg cs d) (i :: path2) = nodeAt c path2 := by
              rw [nodeAt_cons]
              simp only [TrieNode.children, (childFind_inl_spec hcf).1, Option.getD_some]
            refine ⟨?_, ?_⟩
            · rw [getInterp_found, hna, ihg]
              conv_rhs => rw [hsplit]
              exact hstep.1.symm
            · rw [lenInterp_found, hna, ihc]
              conv_rhs => rw [hsplit]
              exact hstep.2.symm
          | notFound path2 pos2 left2 =>
            rw [searchNode_step_notFound hcp hemp hcf hrec]
            rw [hrec, getInterp_notFound] at ihg
            rw [hrec, lenInterp_notFound] at ihc
            refine ⟨?_, ?_⟩
            · rw [getInterp_notFound, ihg]
              conv_rhs => rw [hsplit]
              exact hstep.1.symm
            · rw [lenInterp_notFound, notFoundPrefixLen_cons]
              simp only [TrieNode.children, (childFind_inl_spec hcf).1, Option.getD_some]
              rw [ihc]
              conv_rhs => rw [hsplit]
              exact hstep.2.symm


/- ---------------------------------------------------------------------------
Distinctness of stored keys.
--------------------------------------------------------------------------- -/

theorem lt_of_getElem? {α : Type} {l : List α} {i : Nat} {a : α} (h : l[i]? = some a) :
    i < l.length := by
  by_contra hx
  rw [List.getElem?_eq_none (by omega)] at h
  simp at h

theorem mem_of_getElem? {α : Type} {l : List α} {i : Nat} {a : α} (h : l[i]? = some a) :
    a ∈ l := by
  have h1 := getElem?_decomp h
  rw [← h1]
  simp

theorem entries_keys_nodup : ∀ n : TrieNode C, WFi n = true → (n.entries.map Prod.fst).Nodup := by
  intro n
  induction n using TrieNode.inductionOn with
  | _ seg cs d ih =>
    intro hw
    have hs : headsSorted cs = true := by
      have h1 := WFi_sorted hw
      simpa using h1
    have hwl : ∀ x ∈ cs, WFc x = true := by
      intro x hx
      exact WFi_child hw (by simpa using hx)
    have hmap : ∀ l : List (TrieNode C), headsSorted l = true →
        (∀ x ∈ l, WFc x = true) →
        (∀ x ∈ l, (x.entries.map Prod.fst).Nodup) →
        ((entriesList l).map Prod.fst).Nodup := by
      intro l
      induction l with
      | nil => simp
      | cons c0 cs0 ihl =>
        intro hls hlw hln
        obtain ⟨hls1, hls2⟩ := headsSorted_cons hls
        rw [entriesList_cons, List.map_append]
        apply List.Nodup.append
        · exact hln c0 (by simp)
        · exact ihl hls1 (fun x hx => hlw x (by simp [hx])) (fun x hx => hln x (by simp [hx]))
        · intro a ha hb
          obtain ⟨e1, he1, hae⟩ := List.mem_map.1 ha
          obtain ⟨e2, he2, hbe⟩ := List.mem_map.1 hb
          obtain ⟨c2, hc2, hec2⟩ := mem_entriesList.1 he2
          obtain ⟨hk1, hk2⟩ := entries_key_head (hlw c0 (by simp)) he1
          obtain ⟨hk3, hk4⟩ := entries_key_head (hlw c2 (by simp [hc2])) hec2
          have hne : segHead c0 < segHead c2 := hls2 c2 hc2
          have hx : e1.1 = e2.1 := by rw [hae, hbe]
          rw [hx, hk4] at hk2
          omega
    have hchild := hmap cs hs hwl (fun x hx => ih x hx (WFi_of_WFc (hwl x hx)))
    have hinj : Function.Injective (fun k : List Nat => seg ++ k) := by
      intro a b hab
      exact List.append_cancel_left hab
    have hmapped : (((entriesList cs).map (fun e => (seg ++ e.1, e.2))).map Prod.fst).Nodup := by
      have h1 : ((entriesList cs).map (fun e => (seg ++ e.1, e.2))).map Prod.fst =
          ((entriesList cs).map Prod.fst).map (fun k => seg ++ k) := by
        rw [List.map_map, List.map_map]
        apply List.map_congr_left
        intro e he
        rfl
      rw [h1]
      exact hchild.map hinj
    cases d with
    | none =>
      rw [entries_mk_none]
      exact hmapped
    | some v =>
      rw [entries_mk_some, List.map_cons]
      apply List.Nodup.cons
      · intro hmem
        obtain ⟨e2, he2, hee⟩ := List.mem_map.1 hmem
        obtain ⟨e3, he3, he23⟩ := List.mem_map.1 he2
        obtain ⟨c2, hc2, hec2⟩ := mem_entriesList.1 he3
        obtain ⟨hk1, _⟩ := entries_key_head (hwl c2 hc2) hec2
        rw [← he23] at hee
        simp only at hee
        exact ne_append_right hk1 hee.symm
      · exact hmapped

/- ---------------------------------------------------------------------------
Writing through a recorded path: effect on the entry list.
--------------------------------------------------------------------------- -/

theorem map_prepend_nil (l : List (List Nat × C)) :
    l.map (fun e => (([] : List Nat) ++ e.1, e.2)) = l := by
  induction l with
  | nil => simp
  | cons e l ih => simp [ih]

theorem map_prepend_comp (l : List (List Nat × C)) (a b : List Nat) :
    (l.map (fun e => (b ++ e.1, e.2))).map (fun e => (a ++ e.1, e.2)) =
      l.map (fun e => ((a ++ b) ++ e.1, e.2)) := by
  rw [List.map_map]
  apply List.map_congr_left
  intro e he
  simp

/-- The entries of a node split around the entries of any node reachable by a
valid path, and writing through the path replaces exactly that block. -/
theorem modifyAt_entries {path : List Nat} :
    ∀ {n m : TrieNode C} {pre : List Nat}, descend n path = some (m, pre) →
    ∃ EA EB, n.entries = EA ++ (m.entries.map (fun e => (pre ++ e.1, e.2))) ++ EB ∧
      ∀ f : TrieNode C → TrieNode C,
        (modifyAt n path f).entries =
          EA ++ ((f m).entries.map (fun e => (pre ++ e.1, e.2))) ++ EB := by
  induction path with
  | nil =>
    intro n m pre hd
    rw [descend_nil] at hd
    simp only [Option.some.injEq, Prod.mk.injEq] at hd
    obtain ⟨hm, hpre⟩ := hd
    subst hm
    subst hpre
    exact ⟨[], [], by simp [map_prepend_nil], fun f => by simp [map_prepend_nil, modifyAt]⟩
  | cons i p ih =>
    intro n m pre hd
    cases n with
    | mk seg cs d =>
      cases hc : cs[i]? with
      | none =>
        rw [descend_cons_none (by simpa using hc)] at hd
        simp at hd
      | some c =>
        rw [descend_cons_some (by simpa using hc)] at hd
        cases hdc : descend c p with
        | none => rw [hdc] at hd; simp at hd
        | some q =>
          rw [hdc] at hd
          obtain ⟨m2, s⟩ := q
          simp only [Option.map_some', Option.some.injEq, Prod.mk.injEq] at hd
          obtain ⟨hm2, hpre⟩ := hd
          subst hm2
          subst hpre
          obtain ⟨EA, EB, hsplit, hmod⟩ := ih hdc
          have hilt : i < cs.length := lt_of_getElem? hc
          have hdecomp := getElem?_decomp hc
          have hself : ∀ (cs2 : List (TrieNode C)),
              (TrieNode.mk seg cs2 d).entries =
                (TrieNode.mk seg ([] : List (TrieNode C)) d).entries ++
                  (entriesList cs2).map (fun e => (seg ++ e.1, e.2)) := by
            intro cs2
            cases d with
            | none => rw [entries_mk_none, entries_mk_none]; simp
            | some v => rw [entries_mk_some, entries_mk_some]; simp
          refine ⟨(TrieNode.mk seg ([] : List (TrieNode C)) d).entries ++
              (entriesList (cs.take i)).map (fun e => (seg ++ e.1, e.2)) ++
              (EA.map (fun e => (seg ++ e.1, e.2))),
            (EB.map (fun e => (seg ++ e.1, e.2))) ++
              (entriesList (cs.drop (i + 1))).map (fun e => (seg ++ e.1, e.2)), ?_, ?_⟩
          · rw [hself cs]
            conv_lhs => rw [← hdecomp, entriesList_append, entriesList_cons, hsplit]
            simp only [List.map_append, List.append_assoc, map_prepend_comp,
              TrieNode.segment]
          · intro f
            rw [modifyAt]
            simp only [TrieNode.segment, TrieNode.children, TrieNode.data]
            rw [hself (cs.set i (modifyAt ((cs[i]?).getD TrieNode.new) p f))]
            rw [hc]
            simp only [Option.getD_some]
            rw [set_decomp hilt, entriesList_append, entriesList_cons, hmod f]
            simp only [List.map_append, List.append_assoc, map_prepend_comp,
              TrieNode.segment]


/- ---------------------------------------------------------------------------
Sorted child lists under replacement, insertion and removal.
--------------------------------------------------------------------------- -/

theorem headsSorted_append_cons {l1 l2 : List (TrieNode C)} {c : TrieNode C} :
    headsSorted (l1 ++ c :: l2) = true ↔
      headsSorted (l1 ++ l2) = true ∧ (∀ x ∈ l1, segHead x < segHead c) ∧
        ∀ x ∈ l2, segHead c < segHead x := by
  rw [headsSorted_iff_pairwise, headsSorted_iff_pairwise]
  rw [List.pairwise_append, List.pairwise_append, List.pairwise_cons]
  constructor
  · rintro ⟨h1, ⟨h2, h3⟩, h4⟩
    refine ⟨⟨h1, h3, ?_⟩, ?_, h2⟩
    · intro a ha b hb
      exact h4 a ha b (by simp [hb])
    · intro x hx
      exact h4 x hx c (by simp)
  · rintro ⟨⟨h1, h2, h3⟩, h4, h5⟩
    refine ⟨h1, ⟨h5, h2⟩, ?_⟩
    intro a ha b hb
    rcases List.mem_cons.1 hb with rfl | hb
    · exact h4 a ha
    · exact h3 a ha b hb

theorem WFlist_append_cons {l1 l2 : List (TrieNode C)} {c : TrieNode C} :
    WFlist (l1 ++ c :: l2) = true ↔ WFlist (l1 ++ l2) = true ∧ WFc c = true := by
  simp only [WFlist_iff, List.mem_append, List.mem_cons]
  constructor
  · intro h
    refine ⟨?_, h c (by tauto)⟩
    intro x hx
    apply h x
    tauto
  · rintro ⟨h1, h2⟩ x hx
    rcases hx with hx | hx | hx
    · exact h1 x (by tauto)
    · subst hx
      exact h2
    · exact h1 x (by tauto)

/-- Writing through a valid path preserves internal well-formedness, as long
as the replacement at the designated node keeps its own local invariants (the
side condition is only needed below the root). -/
theorem modifyAt_WF {path : List Nat} :
    ∀ {n m : TrieNode C} {pre : List Nat}, descend n path = some (m, pre) →
      WFi n = true →
      ∀ f : TrieNode C → TrieNode C, WFi (f m) = true →
      (path ≠ [] → segHead (f m) = segHead m ∧ (f m).segment ≠ [] ∧
        ((f m).data.isSome = true ∨ (f m).children ≠ [])) →
      WFi (modifyAt n path f) = true ∧
        (path ≠ [] → (modifyAt n path f).segment = n.segment ∧
          (modifyAt n path f).data = n.data ∧ (modifyAt n path f).children ≠ []) := by
  induction path with
  | nil =>
    intro n m pre hd hw f hf1 hf2
    rw [descend_nil] at hd
    simp only [Option.some.injEq, Prod.mk.injEq] at hd
    obtain ⟨hm, hpre⟩ := hd
    subst hm
    refine ⟨by simpa [modifyAt] using hf1, fun hx => absurd rfl hx⟩
  | cons i p ih =>
    intro n m pre hd hw f hf1 hf2
    cases n with
    | mk seg cs d =>
      cases hc : cs[i]? with
      | none =>
        rw [descend_cons_none (by simpa using hc)] at hd
        simp at hd
      | some c =>
        rw [descend_cons_some (by simpa using hc)] at hd
        cases hdc : descend c p with
        | none => rw [hdc] at hd; simp at hd
        | some q =>
          rw [hdc] at hd
          obtain ⟨m2, s⟩ := q
          simp only [Option.map_some', Option.some.injEq, Prod.mk.injEq] at hd
          obtain ⟨hm2, hpre⟩ := hd
          subst hm2
          have hmemc : c ∈ cs := mem_of_getElem? hc
          have hcw : WFc c = true := WFi_child hw (by simpa using hmemc)
          obtain ⟨hrw, hrp⟩ := ih hdc (WFi_of_WFc hcw) f hf1 (fun _ => hf2 (by simp))
          have hfacts : segHead (modifyAt c p f) = segHead c ∧
              (modifyAt c p f).segment ≠ [] ∧
              ((modifyAt c p f).data.isSome = true ∨ (modifyAt c p f).children ≠ []) := by
            cases hp : p with
            | nil =>
              subst hp
              rw [descend_nil] at hdc
              simp only [Option.some.injEq, Prod.mk.injEq] at hdc
              obtain ⟨hmc, _⟩ := hdc
              have h3 := hf2 (by simp)
              rw [← hmc] at h3
              simpa [modifyAt] using h3
            | cons j p2 =>
              rw [← hp]
              have h4 := hrp (by simp [hp])
              obtain ⟨h5, h6, h7⟩ := h4
              obtain ⟨hcs, _, _⟩ := WFc_iff.1 hcw
              refine ⟨?_, ?_, ?_⟩
              · rw [segHead, segHead, h5]
              · rw [h5]
                exact hcs
              · exact Or.inr h7
          have hc'w : WFc (modifyAt c p f) = true :=
            WFc_iff.2 ⟨hfacts.2.1, hfacts.2.2, hrw⟩
          have hilt : i < cs.length := lt_of_getElem? hc
          have hdecomp := getElem?_decomp hc
          have hsorted0 : headsSorted cs = true := by
            have h1 := WFi_sorted hw
            simpa using h1
          have hwl0 : WFlist cs = true := by
            rw [WFlist_iff]
            intro x hx
            exact WFi_child hw (by simpa using hx)
          rw [← hdecomp] at hsorted0 hwl0
          obtain ⟨hs1, hs2, hs3⟩ := headsSorted_append_cons.1 hsorted0
          obtain ⟨hw1, _⟩ := WFlist_append_cons.1 hwl0
          constructor
          · rw [modifyAt]
            simp only [TrieNode.segment, TrieNode.children, TrieNode.data]
            rw [hc]
            simp only [Option.getD_some]
            rw [WFi_mk, Bool.and_eq_true]
            rw [set_decomp hilt]
            constructor
            · rw [headsSorted_append_cons]
              refine ⟨hs1, ?_, ?_⟩
              · intro x hx
                rw [hfacts.1]
                exact hs2 x hx
              · intro x hx
                rw [hfacts.1]
                exact hs3 x hx
            · rw [WFlist_append_cons]
              exact ⟨hw1, hc'w⟩
          · intro _
            refine ⟨rfl, rfl, ?_⟩
            rw [modifyAt]
            simp only [TrieNode.children]
            rw [hc]
            simp only [Option.getD_some]
            rw [set_decomp hilt]
            simp


/- ---------------------------------------------------------------------------
Local effect of VacantEntry::insert at the designated node.
--------------------------------------------------------------------------- -/

theorem headD_take {l : List Nat} {p : Nat} (hp : 0 < p) :
    (l.take p).headD 0 = l.headD 0 := by
  cases l with
  | nil => simp
  | cons a as =>
    cases p with
    | zero => omega
    | succ q => simp

theorem take_ne_nil {l : List Nat} {p : Nat} (hp : 0 < p) (h : l ≠ []) :
    l.take p ≠ [] := by
  cases l with
  | nil => exact absurd rfl h
  | cons a as =>
    cases p with
    | zero => omega
    | succ q => simp

theorem headD_drop {l : List Nat} {p : Nat} (hp : p < l.length) :
    (l.drop p).headD 0 = l.getD p 0 := by
  rw [List.headD_eq_head?, List.head?_eq_getElem?, List.getElem?_drop, Nat.add_zero,
    List.getD_eq_getElem?_getD]

theorem drop_ne_nil {l : List Nat} {p : Nat} (hp : p < l.length) : l.drop p ≠ [] := by
  intro hx
  have h1 := congrArg List.length hx
  rw [List.length_drop] at h1
  simp at h1
  omega

theorem WFc_single {r : List Nat} (h : r ≠ []) (v : C) :
    WFc (TrieNode.mk r ([] : List (TrieNode C)) (some v)) = true := by
  rw [WFc, WFlist]
  cases r with
  | nil => exact absurd rfl h
  | cons a as => simp [headsSorted]

theorem entries_single (r : List Nat) (v : C) :
    (TrieNode.mk r ([] : List (TrieNode C)) (some v)).entries = [(r, v)] := by
  rw [entries_mk_some]
  simp

theorem WFi_mk_iff {seg : List Nat} {cs : List (TrieNode C)} {d : Option C} :
    WFi (TrieNode.mk seg cs d) = true ↔ headsSorted cs = true ∧ WFlist cs = true := by
  rw [WFi_mk, Bool.and_eq_true]

/-- `VacantEntry::insert` at a `Leaf` position: the node exists with no value;
the new entry is placed in front of the node's entries. -/
theorem vacantInsert_leaf_entries {m : TrieNode C} (hd : m.data = none) (kb : List Nat)
    (off : Nat) (v : C) :
    (vacantInsert .leaf kb off v m).entries = (m.segment, v) :: m.entries := by
  cases m with
  | mk seg cs d =>
    simp only [TrieNode.data] at hd
    subst hd
    rw [vacantInsert]
    simp only [TrieNode.segment, TrieNode.children]
    rw [entries_mk_some, entries_mk_none]

theorem vacantInsert_leaf_WF {m : TrieNode C} (hw : WFi m = true) (kb : List Nat)
    (off : Nat) (v : C) :
    WFi (vacantInsert .leaf kb off v m) = true ∧
      (vacantInsert .leaf kb off v m).segment = m.segment ∧
      segHead (vacantInsert .leaf kb off v m) = segHead m ∧
      (vacantInsert .leaf kb off v m).data.isSome = true := by
  cases m with
  | mk seg cs d =>
    rw [vacantInsert]
    refine ⟨?_, rfl, rfl, rfl⟩
    rw [WFi_mk_iff] at hw ⊢
    simpa using hw

/-- `VacantEntry::insert` at a `Child` position: a fresh leaf child carrying
the left-over key bytes is inserted at the sorted position. -/
theorem vacantInsert_child_spec {m : TrieNode C} {i : Nat} {left : SearchKey}
    (hw : WFi m = true) (hne : left.asRef ≠ [])
    (hcf : childFind (left.asRef.headD 0) m.children = Sum.inr i) (v : C) :
    (∃ la lb, m.entries = la ++ lb ∧
      (vacantInsert (.child i) left.base left.offset v m).entries =
        la ++ (m.segment ++ left.asRef, v) :: lb) ∧
      WFi (vacantInsert (.child i) left.base left.offset v m) = true ∧
      (vacantInsert (.child i) left.base left.offset v m).segment = m.segment ∧
      segHead (vacantInsert (.child i) left.base left.offset v m) = segHead m ∧
      (vacantInsert (.child i) left.base left.offset v m).children ≠ [] := by
  cases m with
  | mk seg cs d =>
    simp only [TrieNode.children] at hcf
    have hs : headsSorted cs = true := by
      have h1 := WFi_sorted hw
      simpa using h1
    have hwlist : WFlist cs = true := by
      rw [WFlist_iff]
      intro x hx
      exact WFi_child hw (by simpa using hx)
    obtain ⟨hile, htake, hdrop⟩ := childFind_inr_spec hs hcf
    have hkd : left.base.drop left.offset = left.asRef := rfl
    rw [vacantInsert]
    simp only [TrieNode.segment, TrieNode.children, TrieNode.data, hkd]
    have hdec := insertIdx_decomp hile (TrieNode.mk left.asRef ([] : List (TrieNode C)) (some v))
    constructor
    · cases d with
      | none =>
        refine ⟨(entriesList (cs.take i)).map (fun e => (seg ++ e.1, e.2)),
          (entriesList (cs.drop i)).map (fun e => (seg ++ e.1, e.2)), ?_, ?_⟩
        · rw [entries_mk_none]
          conv_lhs => rw [← List.take_append_drop i cs]
          rw [entriesList_append, List.map_append]
        · rw [entries_mk_none, hdec, entriesList_append, entriesList_cons, entries_single]
          simp
      | some w =>
        refine ⟨(seg, w) :: (entriesList (cs.take i)).map (fun e => (seg ++ e.1, e.2)),
          (entriesList (cs.drop i)).map (fun e => (seg ++ e.1, e.2)), ?_, ?_⟩
        · rw [entries_mk_some]
          conv_lhs => rw [← List.take_append_drop i cs]
          rw [entriesList_append, List.map_append, List.cons_append]
        · rw [entries_mk_some, hdec, entriesList_append, entriesList_cons, entries_single]
          simp
    · refine ⟨?_, trivial, rfl, ?_⟩
      · rw [WFi_mk_iff]
        rw [hdec]
        constructor
        · rw [headsSorted_append_cons]
          refine ⟨by rw [List.take_append_drop]; exact hs, ?_, ?_⟩
          · intro x hx
            have h1 := htake x hx
            simpa [segHead] using h1
          · intro x hx
            have h1 := hdrop x hx
            simpa [segHead] using h1
        · rw [WFlist_append_cons]
          refine ⟨by rw [List.take_append_drop]; exact hwlist, WFc_single hne v⟩
      · rw [hdec]
        simp


theorem vacantInsert_edge_exhausted {seg : List Nat} {cs : List (TrieNode C)} {d : Option C}
    {kb : List Nat} {off : Nat} (v : C) (p : Nat) (h : kb.length = off) :
    vacantInsert (.edge p) kb off v (.mk seg cs d) =
      .mk (seg.take p) [.mk (seg.drop p) cs d] (some v) := by
  rw [vacantInsert]
  simp [h]

theorem vacantInsert_edge_split {seg : List Nat} {cs : List (TrieNode C)} {d : Option C}
    {kb : List Nat} {off : Nat} (v : C) (p : Nat) (h : ¬(kb.length = off)) :
    vacantInsert (.edge p) kb off v (.mk seg cs d) =
      .mk (seg.take p)
        ((([.mk (seg.drop p) cs d] : List (TrieNode C))).insertIdx
          (if (seg.drop p).headD 0 ≤ kb.getD off 0 then 1 else 0)
          (.mk (kb.drop off) [] (some v))) none := by
  rw [vacantInsert]
  simp [h, segHead]

/-- `VacantEntry::insert` at an `Edge` position: the segment is split at `p`,
the old node's contents move into the split child, and the new value lands
either on the truncated node (key exhausted) or in a fresh sibling leaf. -/
theorem vacantInsert_edge_spec {m : TrieNode C} {p : Nat} {left : SearchKey} {r : List Nat}
    (hw : WFi m = true)
    (hvc : m.data.isSome = true ∨ m.children ≠ [])
    (hp : p = commonPrefixLen m.segment r)
    (hplen : p ≠ m.segment.length)
    (hleft : left.asRef = r.drop p)
    (hofflen : left.offset ≤ left.base.length)
    (v : C) :
    (∃ la lb, m.entries = la ++ lb ∧
      (vacantInsert (.edge p) left.base left.offset v m).entries =
        la ++ (m.segment.take p ++ left.asRef, v) :: lb) ∧
      WFi (vacantInsert (.edge p) left.base left.offset v m) = true ∧
      (vacantInsert (.edge p) left.base left.offset v m).segment = m.segment.take p ∧
      ((vacantInsert (.edge p) left.base left.offset v m).data.isSome = true ∨
        (vacantInsert (.edge p) left.base left.offset v m).children ≠ []) := by
  cases m with
  | mk seg cs d =>
    simp only [TrieNode.segment, TrieNode.data, TrieNode.children] at hp hplen hvc ⊢
    have hkd : left.base.drop left.offset = left.asRef := rfl
    have hple : p ≤ seg.length := by
      rw [hp]
      exact commonPrefixLen_le_left seg r
    have hplt : p < seg.length := by omega
    have hs : headsSorted cs = true := by
      have h1 := WFi_sorted hw
      simpa using h1
    have hwlist : WFlist cs = true := by
      rw [WFlist_iff]
      intro x hx
      exact WFi_child hw (by simpa using hx)
    have hscw : WFc (TrieNode.mk (seg.drop p) cs d) = true := by
      rw [WFc_iff]
      refine ⟨by simpa using drop_ne_nil hplt, by simpa using hvc, ?_⟩
      rw [WFi_mk_iff]
      exact ⟨hs, hwlist⟩
    have hcollapse : (TrieNode.mk (seg.drop p) cs d).entries.map
        (fun e => (seg.take p ++ e.1, e.2)) = (TrieNode.mk seg cs d).entries := by
      cases d with
      | none =>
        rw [entries_mk_none, entries_mk_none, map_prepend_comp, List.take_append_drop]
      | some w =>
        rw [entries_mk_some, entries_mk_some, List.map_cons, map_prepend_comp]
        rw [List.take_append_drop]
    by_cases hkb : left.base.length = left.offset
    case pos =>
      have hasr : left.asRef = [] := by
        rw [← hkd]
        rw [List.drop_eq_nil_iff]
        omega
      rw [vacantInsert_edge_exhausted v p hkb]
      refine ⟨⟨[], (TrieNode.mk seg cs d).entries, by simp, ?_⟩, ?_, rfl, by simp⟩
      · rw [entries_mk_some, hasr, List.append_nil, List.nil_append]
        rw [entriesList_cons, entriesList_nil, List.append_nil, hcollapse]
      · rw [WFi_mk_iff]
        refine ⟨rfl, ?_⟩
        rw [WFlist, WFlist]
        simp [hscw]
    case neg =>
      have hoff : left.offset < left.base.length := by omega
      have hasrne : left.asRef ≠ [] := by
        rw [← hkd]
        exact drop_ne_nil hoff
      have hplt2 : p < r.length := by
        by_contra hx
        have h1 : r.drop p = [] := List.drop_eq_nil_of_le (by omega)
        exact hasrne (hleft.trans h1)
      have hdiv : seg.getD p 0 ≠ r.getD p 0 := by
        have h1 := commonPrefixLen_getD_ne (hp ▸ hplt) (hp ▸ hplt2)
        rw [← hp] at h1
        exact h1
      have hfirstrel : left.base.getD left.offset 0 = left.asRef.headD 0 :=
        SearchKey.first_eq_headD hoff
      have hheadr : left.asRef.headD 0 = r.getD p 0 := by
        rw [hleft]
        exact headD_drop hplt2
      have hheadsc : (seg.drop p).headD 0 = seg.getD p 0 := headD_drop hplt
      rw [vacantInsert_edge_split v p hkb]
      have hncw : WFc (TrieNode.mk (left.base.drop left.offset)
          ([] : List (TrieNode C)) (some v)) = true := by
        apply WFc_single
        rw [hkd]
        exact hasrne
      by_cases hcmp : (seg.drop p).headD 0 ≤ left.base.getD left.offset 0
      case pos =>
        have hlt : (seg.drop p).headD 0 <
            (left.base.drop left.offset).headD 0 := by
          rw [hkd, hheadsc]
          rw [hfirstrel, hheadr, hheadsc] at hcmp
          rw [hheadr]
          omega
        rw [if_pos hcmp]
        have hins : (([TrieNode.mk (seg.drop p) cs d] : List (TrieNode C))).insertIdx 1
            (TrieNode.mk (left.base.drop left.offset) [] (some v)) =
            [TrieNode.mk (seg.drop p) cs d,
              TrieNode.mk (left.base.drop left.offset) [] (some v)] := rfl
        rw [hins]
        refine ⟨⟨(TrieNode.mk seg cs d).entries, [], by simp, ?_⟩, ?_, rfl, by simp⟩
        · rw [entries_mk_none, entriesList_cons, entriesList_cons, entriesList_nil,
            List.append_nil, List.map_append, hcollapse, entries_single]
          simp [hkd]
        · rw [WFi_mk_iff]
          constructor
          · rw [headsSorted]
            simp only [Bool.and_eq_true, decide_eq_true_eq]
            refine ⟨?_, rfl⟩
            simpa [segHead] using hlt
          · rw [WFlist, WFlist, WFlist]
            simp [hscw, hncw]
      case neg =>
        have hlt : (left.base.drop left.offset).headD 0 <
            (seg.drop p).headD 0 := by
          rw [hkd, hheadsc]
          rw [hfirstrel, hheadr, hheadsc] at hcmp
          rw [hheadr]
          omega
        rw [if_neg hcmp]
        have hins : (([TrieNode.mk (seg.drop p) cs d] : List (TrieNode C))).insertIdx 0
            (TrieNode.mk (left.base.drop left.offset) [] (some v)) =
            [TrieNode.mk (left.base.drop left.offset) [] (some v),
              TrieNode.mk (seg.drop p) cs d] := rfl
        rw [hins]
        refine ⟨⟨[], (TrieNode.mk seg cs d).entries, by simp, ?_⟩, ?_, rfl, by simp⟩
        · rw [entries_mk_none, entriesList_cons, entriesList_cons, entriesList_nil,
            List.append_nil, List.map_append, hcollapse, entries_single]
          simp [hkd]
        · rw [WFi_mk_iff]
          constructor
          · rw [headsSorted]
            simp only [Bool.and_eq_true, decide_eq_true_eq]
            refine ⟨?_, rfl⟩
            simpa [segHead] using hlt
          · rw [WFlist, WFlist, WFlist]
            simp [hscw, hncw]

/- ---------------------------------------------------------------------------
remove_entry: value extraction and pruning.
--------------------------------------------------------------------------- -/

theorem removeEntryGo_nil (n : TrieNode C) :
    removeEntryGo n [] = (.mk n.segment n.children none, n.data, n.children.isEmpty) := rfl

theorem removeEntryGo_cons_val (n : TrieNode C) (i : Nat) (p : List Nat) :
    (removeEntryGo n (i :: p)).2.1 =
      (removeEntryGo ((n.children[i]?).getD TrieNode.new) p).2.1 := rfl

theorem removeEntryGo_cons_node (n : TrieNode C) (i : Nat) (p : List Nat) :
    (removeEntryGo n (i :: p)).1 =
      .mk n.segment
        (if (removeEntryGo ((n.children[i]?).getD TrieNode.new) p).2.2 then
          n.children.eraseIdx i
         else n.children.set i (removeEntryGo ((n.children[i]?).getD TrieNode.new) p).1)
        n.data := rfl

/-- The "delete me" flag returned by `remove_entry`'s pruning walk holds
exactly when the node it accompanies has become childless and valueless. -/
theorem removeEntryGo_flag : ∀ (path : List Nat) (n : TrieNode C),
    (removeEntryGo n path).2.2 =
      ((removeEntryGo n path).1.children.isEmpty && (removeEntryGo n path).1.data.isNone) := by
  intro path n
  cases path with
  | nil =>
    rw [removeEntryGo_nil]
    simp
  | cons i p => rfl

/-- The value taken by `remove_entry` is the designated node's stored value. -/
theorem removeEntryGo_val : ∀ (path : List Nat) (n : TrieNode C),
    (removeEntryGo n path).2.1 = (nodeAt n path).data := by
  intro path
  induction path with
  | nil =>
    intro n
    rfl
  | cons i p ih =>
    intro n
    rw [removeEntryGo_cons_val, nodeAt_cons]
    exact ih _

theorem entries_mk_split (seg : List Nat) (cs : List (TrieNode C)) (d : Option C) :
    (TrieNode.mk seg cs d).entries =
      (TrieNode.mk seg ([] : List (TrieNode C)) d).entries ++
        (entriesList cs).map (fun e => (seg ++ e.1, e.2)) := by
  cases d with
  | none =>
    rw [entries_mk_none, entries_mk_none]
    simp
  | some v =>
    rw [entries_mk_some, entries_mk_some]
    simp

theorem entries_eq_nil_of_empty {n : TrieNode C} (hc : n.children = [])
    (hd : n.data = none) : n.entries = [] := by
  cases n with
  | mk s2 c2 d2 =>
    simp only [TrieNode.children, TrieNode.data] at hc hd
    subst hc
    subst hd
    rw [entries_mk_none]
    rfl

/-- `remove_entry` along a valid path to a node holding a value: the value is
extracted, exactly that node's association-list entry disappears, and the
pruning walk keeps the tree internally well-formed with its segment
untouched. -/
theorem removeEntryGo_spec {path : List Nat} :
    ∀ {n m : TrieNode C} {pre : List Nat} {w : C},
      descend n path = some (m, pre) → WFi n = true → m.data = some w →
      (∃ la lb, n.entries = la ++ (pre ++ m.segment, w) :: lb ∧
        (removeEntryGo n path).1.entries = la ++ lb) ∧
      WFi (removeEntryGo n path).1 = true ∧
      (removeEntryGo n path).1.segment = n.segment := by
  induction path with
  | nil =>
    intro n m pre w hd hw hm
    rw [descend_nil] at hd
    simp only [Option.some.injEq, Prod.mk.injEq] at hd
    obtain ⟨hm2, hpre⟩ := hd
    subst hm2
    subst hpre
    cases n with
    | mk seg cs d =>
      simp only [TrieNode.data] at hm
      subst hm
      rw [removeEntryGo_nil]
      simp only [TrieNode.segment, TrieNode.children, TrieNode.data]
      refine ⟨⟨[], (entriesList cs).map (fun e => (seg ++ e.1, e.2)), ?_, ?_⟩, ?_, ?_⟩
      · rw [entries_mk_some]
        simp
      · rw [entries_mk_none]
        simp
      · rw [WFi_mk_iff] at hw ⊢
        simpa using hw
      · trivial
  | cons i p ih =>
    intro n m pre w hd hw hm
    cases n with
    | mk seg cs d =>
      cases hc : cs[i]? with
      | none =>
        rw [descend_cons_none (by simpa using hc)] at hd
        simp at hd
      | some c =>
        rw [descend_cons_some (by simpa using hc)] at hd
        cases hdc : descend c p with
        | none =>
          rw [hdc] at hd
          simp at hd
        | some q =>
          rw [hdc] at hd
          obtain ⟨m2, s⟩ := q
          simp only [Option.map_some', Option.some.injEq, Prod.mk.injEq] at hd
          obtain ⟨hm2, hpre⟩ := hd
          subst hm2
          subst hpre
          have hwc : WFc c = true := WFi_child hw (by simpa using mem_of_getElem? hc)
          have hwic : WFi c = true := WFi_of_WFc hwc
          obtain ⟨⟨la2, lb2, hsplit2, hnew2⟩, hwf2, hseg2⟩ := ih hdc hwic hm
          have hilt : i < cs.length := lt_of_getElem? hc
          have hdecomp := getElem?_decomp hc
          have hs : headsSorted cs = true := by
            have h1 := WFi_sorted hw
            simpa using h1
          have hwl : WFlist cs = true := by
            rw [WFlist_iff]
            intro x hx
            exact WFi_child hw (by simpa using hx)
          obtain ⟨hsTD, hsTake, hsDrop⟩ := headsSorted_append_cons.1
            (by rw [hdecomp]; exact hs)
          obtain ⟨hwTD, hwC⟩ := WFlist_append_cons.1 (by rw [hdecomp]; exact hwl)
          have hnode := removeEntryGo_cons_node (TrieNode.mk seg cs d) i p
          rw [show (TrieNode.mk seg cs d).children = cs from rfl, hc] at hnode
          simp only [Option.getD_some,
            show (TrieNode.mk seg cs d).segment = seg from rfl,
            show (TrieNode.mk seg cs d).data = d from rfl] at hnode
          have hkey : seg ++ (s ++ m2.segment) =
              (TrieNode.mk seg cs d).segment ++ s ++ m2.segment := by
            simp [List.append_assoc]
          cases hflag : (removeEntryGo c p).2.2 with
          | true =>
            have hflag1 := removeEntryGo_flag p c
            rw [hflag] at hflag1
            have hfc : (removeEntryGo c p).1.children = [] := by
              cases hx : (removeEntryGo c p).1.children with
              | nil => rfl
              | cons a l =>
                rw [hx] at hflag1
                simp at hflag1
            have hfd : (removeEntryGo c p).1.data = none := by
              cases hx : (removeEntryGo c p).1.data with
              | none => rfl
              | some a =>
                rw [hx] at hflag1
                simp at hflag1
            have hempty : (removeEntryGo c p).1.entries = [] :=
              entries_eq_nil_of_empty hfc hfd
            have hlalb : la2 = [] ∧ lb2 = [] := by
              rw [hempty] at hnew2
              exact List.append_eq_nil.1 hnew2.symm
            obtain ⟨hla2, hlb2⟩ := hlalb
            subst hla2
            subst hlb2
            rw [if_pos hflag] at hnode
            refine ⟨⟨(TrieNode.mk seg ([] : List (TrieNode C)) d).entries ++
                (entriesList (cs.take i)).map (fun e => (seg ++ e.1, e.2)),
              (entriesList (cs.drop (i + 1))).map (fun e => (seg ++ e.1, e.2)), ?_, ?_⟩,
              ?_, by rw [hnode]; rfl⟩
            · rw [entries_mk_split seg cs d]
              conv_lhs => rw [← hdecomp, entriesList_append, entriesList_cons, hsplit2]
              simp only [List.nil_append, List.map_append, List.map_cons,
                List.append_assoc, List.cons_append, TrieNode.segment, hkey]
            · rw [hnode, entries_mk_split, List.eraseIdx_eq_take_drop_succ,
                entriesList_append, List.map_append, List.append_assoc]
            · rw [hnode, WFi_mk_iff, List.eraseIdx_eq_take_drop_succ]
              exact ⟨hsTD, hwTD⟩
          | false =>
            rw [if_neg (by simp [hflag])] at hnode
            have hsegc : (removeEntryGo c p).1.segment = c.segment := hseg2
            have hheadc : segHead (removeEntryGo c p).1 = segHead c := by
              rw [segHead, segHead, hsegc]
            have hwcr : WFc (removeEntryGo c p).1 = true := by
              rw [WFc_iff]
              refine ⟨by rw [hsegc]; exact (WFc_iff.1 hwc).1, ?_, hwf2⟩
              have h1 := removeEntryGo_flag p c
              rw [hflag] at h1
              by_cases h2 : (removeEntryGo c p).1.children = []
              · left
                cases hx : (removeEntryGo c p).1.data with
                | some a => rfl
                | none =>
                  rw [h2, hx] at h1
                  simp at h1
              · right
                exact h2
            refine ⟨⟨(TrieNode.mk seg ([] : List (TrieNode C)) d).entries ++
                (entriesList (cs.take i)).map (fun e => (seg ++ e.1, e.2)) ++
                la2.map (fun e => (seg ++ e.1, e.2)),
              lb2.map (fun e => (seg ++ e.1, e.2)) ++
                (entriesList (cs.drop (i + 1))).map (fun e => (seg ++ e.1, e.2)), ?_, ?_⟩,
              ?_, by rw [hnode]; rfl⟩
            · rw [entries_mk_split seg cs d]
              conv_lhs => rw [← hdecomp, entriesList_append, entriesList_cons, hsplit2]
              simp only [List.map_append, List.map_cons, List.append_assoc,
                List.cons_append, TrieNode.segment, hkey]
            · rw [hnode, entries_mk_split, set_decomp hilt, entriesList_append,
                entriesList_cons, hnew2]
              simp only [List.map_append, List.append_assoc]
            · rw [hnode, WFi_mk_iff, set_decomp hilt]
              constructor
              · rw [headsSorted_append_cons]
                refine ⟨hsTD, ?_, ?_⟩
                · intro x hx
                  rw [hheadc]
                  exact hsTake x hx
                · intro x hx
                  rw [hheadc]
                  exact hsDrop x hx
              · rw [WFlist_append_cons]
                exact ⟨hwTD, hwcr⟩


/- ---------------------------------------------------------------------------
Top-level operations: unfolding equations and master facts.
--------------------------------------------------------------------------- -/

theorem descend_nil_inv {n m : TrieNode C} {pre : List Nat}
    (h : descend n [] = some (m, pre)) : m = n ∧ pre = [] := by
  rw [descend_nil] at h
  simp only [Option.some.injEq, Prod.mk.injEq] at h
  exact ⟨h.1.symm, h.2.symm⟩

/-- Along a non-empty valid path the reached node satisfies the full non-root
invariant. -/
theorem descend_WFc {path : List Nat} : ∀ {n m : TrieNode C} {pre : List Nat},
    descend n path = some (m, pre) → WFi n = true → path ≠ [] → WFc m = true := by
  induction path with
  | nil =>
    intro n m pre hd hw hne
    exact absurd rfl hne
  | cons i p ih =>
    intro n m pre hd hw hne
    cases hc : n.children[i]? with
    | none =>
      rw [descend_cons_none hc] at hd
      simp at hd
    | some c =>
      rw [descend_cons_some hc] at hd
      cases hdc : descend c p with
      | none =>
        rw [hdc] at hd
        simp at hd
      | some q =>
        rw [hdc] at hd
        obtain ⟨m2, s⟩ := q
        simp only [Option.map_some', Option.some.injEq, Prod.mk.injEq] at hd
        obtain ⟨hm2, hpre⟩ := hd
        subst hm2
        have hwc : WFc c = true := WFi_child hw (mem_of_getElem? hc)
        cases hp : p with
        | nil =>
          subst hp
          obtain ⟨h1, h2⟩ := descend_nil_inv hdc
          rw [h1]
          exact hwc
        | cons j p2 =>
          subst hp
          exact ih hdc (WFi_of_WFc hwc) (by simp)

theorem insert_eq_found {t : TrieNode C} {k : List Nat} {path : List Nat} {kk : SearchKey}
    (hsr : searchNode t ⟨k, 0⟩ = .found path kk) (v : C) :
    t.insert k v = (modifyAt t path (occupiedInsertAt v), (nodeAt t path).data) := by
  unfold TrieNode.insert TrieNode.entry
  rw [hsr]

theorem insert_eq_notFound {t : TrieNode C} {k : List Nat} {path : List Nat} {pos : PosType}
    {left : SearchKey} (hsr : searchNode t ⟨k, 0⟩ = .notFound path pos left) (v : C) :
    t.insert k v = (modifyAt t path (vacantInsert pos left.base left.offset v), none) := by
  unfold TrieNode.insert TrieNode.entry
  rw [hsr]

theorem get_eq_found {t : TrieNode C} {k : List Nat} {path : List Nat} {kk : SearchKey}
    (hsr : searchNode t ⟨k, 0⟩ = .found path kk) :
    t.get k = (nodeAt t path).data := by
  unfold TrieNode.get
  rw [hsr]

theorem get_eq_notFound {t : TrieNode C} {k : List Nat} {path : List Nat} {pos : PosType}
    {left : SearchKey} (hsr : searchNode t ⟨k, 0⟩ = .notFound path pos left) :
    t.get k = none := by
  unfold TrieNode.get
  rw [hsr]

theorem remove_eq_found {t : TrieNode C} {k : List Nat} {path : List Nat} {kk : SearchKey}
    (hsr : searchNode t ⟨k, 0⟩ = .found path kk) :
    t.remove k = ((removeEntryGo t path).1, (removeEntryGo t path).2.1) := by
  unfold TrieNode.remove
  rw [hsr]

theorem remove_eq_notFound {t : TrieNode C} {k : List Nat} {path : List Nat} {pos : PosType}
    {left : SearchKey} (hsr : searchNode t ⟨k, 0⟩ = .notFound path pos left) :
    t.remove k = (t, none) := by
  unfold TrieNode.remove
  rw [hsr]

theorem orInsert_eq_found {t : TrieNode C} {k : List Nat} {path : List Nat} {kk : SearchKey}
    (hsr : searchNode t ⟨k, 0⟩ = .found path kk) (v : C) :
    t.orInsert k v = (t, (nodeAt t path).data) := by
  unfold TrieNode.orInsert TrieNode.entry
  rw [hsr]

theorem orInsert_eq_notFound {t : TrieNode C} {k : List Nat} {path : List Nat} {pos : PosType}
    {left : SearchKey} (hsr : searchNode t ⟨k, 0⟩ = .notFound path pos left) (v : C) :
    t.orInsert k v = (modifyAt t path (vacantInsert pos left.base left.offset v), some v) := by
  unfold TrieNode.orInsert TrieNode.entry
  rw [hsr]

theorem search_lookup_found {t : TrieNode C} {k : List Nat} {path : List Nat} {kk : SearchKey}
    (hwf : WFi t = true) (hsr : searchNode t ⟨k, 0⟩ = .found path kk) :
    (nodeAt t path).data = lookupE t.entries k := by
  have h := (search_master t ⟨k, 0⟩ hwf (by simp)).1
  rw [hsr, getInterp_found] at h
  simpa using h

theorem search_lookup_notFound {t : TrieNode C} {k : List Nat} {path : List Nat}
    {pos : PosType} {left : SearchKey}
    (hwf : WFi t = true) (hsr : searchNode t ⟨k, 0⟩ = .notFound path pos left) :
    lookupE t.entries k = none := by
  have h := (search_master t ⟨k, 0⟩ hwf (by simp)).1
  rw [hsr, getInterp_notFound] at h
  simpa using h.symm

/-- `get` under the root invariant is association-list lookup in the stored
entries. -/
theorem get_lookup {t : TrieNode C} (hroot : RootOK t) (k : List Nat) :
    t.get k = lookupE t.entries k := by
  cases hsr : searchNode t ⟨k, 0⟩ with
  | found path kk =>
    rw [get_eq_found hsr]
    exact search_lookup_found hroot.2 hsr
  | notFound path pos left =>
    rw [get_eq_notFound hsr]
    exact (search_lookup_notFound hroot.2 hsr).symm

/-- `prefix_len` under the root invariant counts the stored keys the argument
is a prefix of. -/
theorem prefixLen_count {t : TrieNode C} (hroot : RootOK t) (p : List Nat) :
    t.prefixLen p = t.entries.countP (fun e => isPre p e.1) := by
  have h := (search_master t ⟨p, 0⟩ hroot.2 (by simp)).2
  have hk : (SearchKey.mk p 0).asRef = p := by simp
  rw [hk] at h
  cases hsr : searchNode t ⟨p, 0⟩ with
  | found path kk =>
    rw [hsr, lenInterp_found] at h
    rw [← h]
    unfold TrieNode.prefixLen
    rw [hsr]
  | notFound path pos left =>
    rw [hsr, lenInterp_notFound] at h
    rw [← h]
    unfold TrieNode.prefixLen
    rw [hsr]

/-- `insert` under the root invariant: the returned option is the previous
binding, exactly the binding of `k` is added or replaced in the entries, and
the invariant is preserved. -/
theorem insert_spec {t : TrieNode C} (hroot : RootOK t) (k : List Nat) (v : C) :
    (t.insert k v).2 = lookupE t.entries k ∧
    (∃ la lb, (t.insert k v).1.entries = la ++ (k, v) :: lb ∧
      ((lookupE t.entries k = none ∧ t.entries = la ++ lb) ∨
       (∃ w, lookupE t.entries k = some w ∧ t.entries = la ++ (k, w) :: lb))) ∧
    RootOK (t.insert k v).1 := by
  obtain ⟨hseg, hwf⟩ := hroot
  cases hsr : searchNode t ⟨k, 0⟩ with
  | found path kk =>
    rw [insert_eq_found hsr v]
    obtain ⟨hb, ho, m, pre, hdesc, hsegs, hsome⟩ :=
      search_found_shape t ⟨k, 0⟩ path kk (by simp) hsr
    rw [show (SearchKey.mk k 0).asRef = k by simp] at hsegs
    have hnode : nodeAt t path = m := descend_nodeAt hdesc
    obtain ⟨w, hw⟩ := Option.isSome_iff_exists.1 hsome
    have hlk : lookupE t.entries k = some w := by
      rw [← search_lookup_found hwf hsr, hnode, hw]
    obtain ⟨EA, EB, hold, hmod⟩ := modifyAt_entries hdesc
    have hwm : WFi m = true := by
      cases hp : path with
      | nil =>
        subst hp
        obtain ⟨h1, h2⟩ := descend_nil_inv hdesc
        rw [h1]
        exact hwf
      | cons j p2 =>
        subst hp
        exact WFi_of_WFc (descend_WFc hdesc hwf (by simp))
    cases m with
    | mk sm cm dm =>
      have hdm : dm = some w := by simpa using hw
      subst hdm
      have hk2 : k = pre ++ sm := by simpa using hsegs
      have hfm : occupiedInsertAt v (TrieNode.mk sm cm (some w)) =
          TrieNode.mk sm cm (some v) := rfl
      refine ⟨?_, ?_, ?_⟩
      · show (nodeAt t path).data = lookupE t.entries k
        rw [hnode, hlk]
        rfl
      · refine ⟨EA, ((entriesList cm).map (fun e => (sm ++ e.1, e.2))).map
          (fun e => (pre ++ e.1, e.2)) ++ EB, ?_, Or.inr ⟨w, hlk, ?_⟩⟩
        · show (modifyAt t path (occupiedInsertAt v)).entries = _
          rw [hmod (occupiedInsertAt v), hfm, entries_mk_some]
          rw [List.map_cons, hk2]
          simp [List.append_assoc]
        · rw [hold, entries_mk_some, List.map_cons, hk2]
          simp [List.append_assoc]
      · have hwfm : WFi (occupiedInsertAt v (TrieNode.mk sm cm (some w))) = true := by
          rw [hfm, WFi_mk_iff]
          rw [WFi_mk_iff] at hwm
          exact hwm
        have hside : path ≠ [] →
            segHead (occupiedInsertAt v (TrieNode.mk sm cm (some w))) =
              segHead (TrieNode.mk sm cm (some w)) ∧
            (occupiedInsertAt v (TrieNode.mk sm cm (some w))).segment ≠ [] ∧
            ((occupiedInsertAt v (TrieNode.mk sm cm (some w))).data.isSome = true ∨
              (occupiedInsertAt v (TrieNode.mk sm cm (some w))).children ≠ []) := by
          intro hne
          have hwc := descend_WFc hdesc hwf hne
          refine ⟨rfl, ?_, Or.inl rfl⟩
          rw [hfm]
          simpa using (WFc_iff.1 hwc).1
        obtain ⟨hw1, hw2⟩ := modifyAt_WF hdesc hwf (occupiedInsertAt v) hwfm hside
        refine ⟨?_, hw1⟩
        cases hp : path with
        | nil =>
          subst hp
          obtain ⟨h1, h2⟩ := descend_nil_inv hdesc
          show (occupiedInsertAt v (nodeAt t [] )).segment = []
          rw [nodeAt_nil]
          rw [show (occupiedInsertAt v t).segment = t.segment from rfl]
          exact hseg
        | cons j p2 =>
          subst hp
          rw [(hw2 (by simp)).1]
          exact hseg
  | notFound path pos left =>
    rw [insert_eq_notFound hsr v]
    obtain ⟨m, pre, r, hdesc, hsplit, hhead, hposf⟩ :=
      search_notFound_shape t ⟨k, 0⟩ path pos left (by simp) hsr
    rw [show (SearchKey.mk k 0).asRef = k by simp] at hsplit
    have hlk : lookupE t.entries k = none := search_lookup_notFound hwf hsr
    obtain ⟨EA, EB, hold, hmod⟩ := modifyAt_entries hdesc
    have hwm : WFi m = true := by
      cases hp : path with
      | nil =>
        subst hp
        obtain ⟨h1, h2⟩ := descend_nil_inv hdesc
        rw [h1]
        exact hwf
      | cons j p2 =>
        subst hp
        exact WFi_of_WFc (descend_WFc hdesc hwf (by simp))
    cases pos with
    | leaf =>
      obtain ⟨hr, hdm, hlf⟩ := hposf
      have hent := vacantInsert_leaf_entries hdm left.base left.offset v
      obtain ⟨hwfv, hsegv, hheadv, hdatav⟩ := vacantInsert_leaf_WF hwm left.base left.offset v
      refine ⟨by rw [hlk], ?_, ?_⟩
      · refine ⟨EA, m.entries.map (fun e => (pre ++ e.1, e.2)) ++ EB, ?_,
          Or.inl ⟨hlk, ?_⟩⟩
        · show (modifyAt t path (vacantInsert .leaf left.base left.offset v)).entries = _
          rw [hmod (vacantInsert .leaf left.base left.offset v), hent, List.map_cons]
          rw [show pre ++ m.segment = k by rw [hsplit, hr]]
          simp [List.append_assoc]
        · rw [hold]
          simp [List.append_assoc]
      · have hside : path ≠ [] →
            segHead (vacantInsert .leaf left.base left.offset v m) = segHead m ∧
            (vacantInsert .leaf left.base left.offset v m).segment ≠ [] ∧
            ((vacantInsert .leaf left.base left.offset v m).data.isSome = true ∨
              (vacantInsert .leaf left.base left.offset v m).children ≠ []) := by
          intro hne
          have hwc := descend_WFc hdesc hwf hne
          refine ⟨hheadv, ?_, Or.inl hdatav⟩
          rw [hsegv]
          exact (WFc_iff.1 hwc).1
        obtain ⟨hw1, hw2⟩ := modifyAt_WF hdesc hwf _ hwfv hside
        refine ⟨?_, hw1⟩
        cases hp : path with
        | nil =>
          subst hp
          obtain ⟨h1, h2⟩ := descend_nil_inv hdesc
          show (vacantInsert .leaf left.base left.offset v (nodeAt t [])).segment = []
          rw [nodeAt_nil]
          have := hsegv
          rw [h1] at this
          rw [this]
          exact hseg
        | cons j p2 =>
          subst hp
          rw [(hw2 (by simp)).1]
          exact hseg
    | child i =>
      obtain ⟨hr, hne, hcf, hlb, hoff⟩ := hposf
      obtain ⟨⟨la2, lb2, hsplit2, hnew2⟩, hwfv, hsegv, hheadv, hchildv⟩ :=
        vacantInsert_child_spec hwm hne hcf v
      refine ⟨by rw [hlk], ?_, ?_⟩
      · refine ⟨EA ++ la2.map (fun e => (pre ++ e.1, e.2)),
          lb2.map (fun e => (pre ++ e.1, e.2)) ++ EB, ?_, Or.inl ⟨hlk, ?_⟩⟩
        · show (modifyAt t path (vacantInsert (.child i) left.base left.offset v)).entries = _
          rw [hmod (vacantInsert (.child i) left.base left.offset v), hnew2, List.map_append,
            List.map_cons]
          rw [show pre ++ (m.segment ++ left.asRef) = k by rw [hsplit, hr]]
          simp [List.append_assoc]
        · rw [hold, hsplit2, List.map_append]
          simp [List.append_assoc]
      · have hside : path ≠ [] →
            segHead (vacantInsert (.child i) left.base left.offset v m) = segHead m ∧
            (vacantInsert (.child i) left.base left.offset v m).segment ≠ [] ∧
            ((vacantInsert (.child i) left.base left.offset v m).data.isSome = true ∨
              (vacantInsert (.child i) left.base left.offset v m).children ≠ []) := by
          intro hne2
          have hwc := descend_WFc hdesc hwf hne2
          refine ⟨hheadv, ?_, Or.inr hchildv⟩
          rw [hsegv]
          exact (WFc_iff.1 hwc).1
        obtain ⟨hw1, hw2⟩ := modifyAt_WF hdesc hwf _ hwfv hside
        refine ⟨?_, hw1⟩
        cases hp : path with
        | nil =>
          subst hp
          obtain ⟨h1, h2⟩ := descend_nil_inv hdesc
          show (vacantInsert (.child i) left.base left.offset v (nodeAt t [])).segment = []
          rw [nodeAt_nil]
          have := hsegv
          rw [h1] at this
          rw [this]
          exact hseg
        | cons j p2 =>
          subst hp
          rw [(hw2 (by simp)).1]
          exact hseg
    | edge p =>
      obtain ⟨hp, hplen, hlb, hoff, hleft⟩ := hposf
      have hpne : path ≠ [] := by
        intro hx
        subst hx
        obtain ⟨h1, h2⟩ := descend_nil_inv hdesc
        apply hplen
        rw [h1, hseg]
        rw [h1, hseg] at hp
        simpa using hp
      have hwc := descend_WFc hdesc hwf hpne
      have hvc : m.data.isSome = true ∨ m.children ≠ [] := (WFc_iff.1 hwc).2.1
      obtain ⟨hrne, hrhead⟩ := hhead hpne
      have hp0 : 0 < p := by
        rw [hp]
        exact commonPrefixLen_pos (WFc_iff.1 hwc).1 hrne (by rw [hrhead]; rfl)
      obtain ⟨⟨la2, lb2, hsplit2, hnew2⟩, hwfv, hsegv, hvcv⟩ :=
        vacantInsert_edge_spec hwm hvc hp hplen hleft hoff v
      have hkeyr : m.segment.take p ++ left.asRef = r := by
        rw [hleft, hp, commonPrefixLen_take, List.take_append_drop]
      refine ⟨by rw [hlk], ?_, ?_⟩
      · refine ⟨EA ++ la2.map (fun e => (pre ++ e.1, e.2)),
          lb2.map (fun e => (pre ++ e.1, e.2)) ++ EB, ?_, Or.inl ⟨hlk, ?_⟩⟩
        · show (modifyAt t path (vacantInsert (.edge p) left.base left.offset v)).entries = _
          rw [hmod (vacantInsert (.edge p) left.base left.offset v), hnew2, List.map_append,
            List.map_cons]
          rw [show pre ++ (m.segment.take p ++ left.asRef) = k by rw [hkeyr, hsplit]]
          simp [List.append_assoc]
        · rw [hold, hsplit2, List.map_append]
          simp [List.append_assoc]
      · have hside : path ≠ [] →
            segHead (vacantInsert (.edge p) left.base left.offset v m) = segHead m ∧
            (vacantInsert (.edge p) left.base left.offset v m).segment ≠ [] ∧
            ((vacantInsert (.edge p) left.base left.offset v m).data.isSome = true ∨
              (vacantInsert (.edge p) left.base left.offset v m).children ≠ []) := by
          intro hne2
          refine ⟨?_, ?_, hvcv⟩
          · rw [segHead, segHead, hsegv]
            exact headD_take hp0
          · rw [hsegv]
            exact take_ne_nil hp0 (WFc_iff.1 hwc).1
        obtain ⟨hw1, hw2⟩ := modifyAt_WF hdesc hwf _ hwfv hside
        exact ⟨by rw [(hw2 hpne).1]; exact hseg, hw1⟩


/-- `remove` under the root invariant: the removed binding is returned, the
entries lose exactly that binding (a miss leaves the tree untouched), and the
invariant is preserved. -/
theorem remove_spec {t : TrieNode C} (hroot : RootOK t) (k : List Nat) :
    (t.remove k).2 = lookupE t.entries k ∧
    ((lookupE t.entries k = none ∧ (t.remove k).1 = t) ∨
     (∃ w la lb, lookupE t.entries k = some w ∧ t.entries = la ++ (k, w) :: lb ∧
        (t.remove k).1.entries = la ++ lb)) ∧
    RootOK (t.remove k).1 := by
  obtain ⟨hseg, hwf⟩ := hroot
  cases hsr : searchNode t ⟨k, 0⟩ with
  | notFound path pos left =>
    rw [remove_eq_notFound hsr]
    have hlk := search_lookup_notFound hwf hsr
    exact ⟨by rw [hlk], Or.inl ⟨hlk, rfl⟩, hseg, hwf⟩
  | found path kk =>
    rw [remove_eq_found hsr]
    obtain ⟨hb, ho, m, pre, hdesc, hsegs, hsome⟩ :=
      search_found_shape t ⟨k, 0⟩ path kk (by simp) hsr
    rw [show (SearchKey.mk k 0).asRef = k by simp] at hsegs
    have hnode : nodeAt t path = m := descend_nodeAt hdesc
    obtain ⟨w, hw⟩ := Option.isSome_iff_exists.1 hsome
    have hlk : lookupE t.entries k = some w := by
      rw [← search_lookup_found hwf hsr, hnode, hw]
    obtain ⟨⟨la, lb, hold, hnew⟩, hwf2, hseg2⟩ := removeEntryGo_spec hdesc hwf hw
    refine ⟨?_, Or.inr ⟨w, la, lb, hlk, ?_, hnew⟩, ?_, hwf2⟩
    · show (removeEntryGo t path).2.1 = _
      rw [removeEntryGo_val, hnode, hw, hlk]
    · rw [hold, ← hsegs]
    · rw [hseg2]
      exact hseg

/-- `entry(k).or_insert(v)`: on a miss the tree is updated exactly as by
`insert` and the reference yields `v`; on a hit nothing changes and the
reference yields the stored value. -/
theorem orInsert_spec {t : TrieNode C} (hroot : RootOK t) (k : List Nat) (v : C) :
    ((lookupE t.entries k = none ∧ (t.orInsert k v).1 = (t.insert k v).1 ∧
        (t.orInsert k v).2 = some v) ∨
     (∃ w, lookupE t.entries k = some w ∧ t.orInsert k v = (t, some w))) ∧
    RootOK (t.orInsert k v).1 := by
  obtain ⟨hseg, hwf⟩ := hroot
  cases hsr : searchNode t ⟨k, 0⟩ with
  | found path kk =>
    rw [orInsert_eq_found hsr v]
    obtain ⟨hb, ho, m, pre, hdesc, hsegs, hsome⟩ :=
      search_found_shape t ⟨k, 0⟩ path kk (by simp) hsr
    have hnode : nodeAt t path = m := descend_nodeAt hdesc
    obtain ⟨w, hw⟩ := Option.isSome_iff_exists.1 hsome
    have hlk : lookupE t.entries k = some w := by
      rw [← search_lookup_found hwf hsr, hnode, hw]
    exact ⟨Or.inr ⟨w, hlk, by rw [hnode, hw]⟩, hseg, hwf⟩
  | notFound path pos left =>
    rw [orInsert_eq_notFound hsr v]
    have hlk := search_lookup_notFound hwf hsr
    have hieq : (t.insert k v).1 =
        modifyAt t path (vacantInsert pos left.base left.offset v) := by
      rw [insert_eq_notFound hsr v]
    refine ⟨Or.inl ⟨hlk, by rw [hieq], rfl⟩, ?_⟩
    show RootOK (modifyAt t path (vacantInsert pos left.base left.offset v))
    rw [← hieq]
    exact (insert_spec ⟨hseg, hwf⟩ k v).2.2

/-- The empty trie satisfies the root invariant. -/
theorem new_RootOK : RootOK (TrieNode.new : TrieNode C) := ⟨rfl, rfl⟩

theorem new_entries : (TrieNode.new : TrieNode C).entries = [] :=
  entries_eq_nil_of_empty rfl rfl

/-- Every tree reachable by the public mutating operations satisfies the
root invariant. -/
theorem Reachable_RootOK {t : TrieNode C} (h : Reachable t) : RootOK t := by
  induction h with
  | new => exact new_RootOK
  | ins k v h ih => exact (insert_spec ih k v).2.2
  | del k h ih => exact (remove_spec ih k).2.2
  | orIns k v h ih => exact (orInsert_spec ih k v).2

/- ---------------------------------------------------------------------------
Derived operation laws.
--------------------------------------------------------------------------- -/

theorem insert_ret {t : TrieNode C} (hroot : RootOK t) (k : List Nat) (v : C) :
    (t.insert k v).2 = t.get k := by
  rw [(insert_spec hroot k v).1, get_lookup hroot]

theorem insert_get_self {t : TrieNode C} (hroot : RootOK t) (k : List Nat) (v : C) :
    (t.insert k v).1.get k = some v := by
  obtain ⟨h1, ⟨la, lb, hnew, h2⟩, hroot2⟩ := insert_spec hroot k v
  rw [get_lookup hroot2]
  exact lookupE_some_of_mem_of_nodup (entries_keys_nodup _ hroot2.2) hnew

theorem insert_get_frame {t : TrieNode C} (hroot : RootOK t) {k k2 : List Nat}
    (hne : k2 ≠ k) (v : C) : (t.insert k v).1.get k2 = t.get k2 := by
  obtain ⟨h1, ⟨la, lb, hnew, hcase⟩, hroot2⟩ := insert_spec hroot k v
  rw [get_lookup hroot2, get_lookup hroot, hnew, lookupE_middle_ne hne]
  rcases hcase with ⟨h3, hold⟩ | ⟨w, h3, hold⟩
  · rw [hold]
  · rw [hold, lookupE_middle_ne hne]

theorem insert_len_none {t : TrieNode C} (hroot : RootOK t) {k : List Nat} {v : C}
    (hn : (t.insert k v).2 = none) : (t.insert k v).1.len = t.len + 1 := by
  obtain ⟨hret, ⟨la, lb, hnew, hcase⟩, hroot2⟩ := insert_spec hroot k v
  rw [len_eq_entries_length, len_eq_entries_length, hnew]
  rcases hcase with ⟨h3, hold⟩ | ⟨w, h3, hold⟩
  · rw [hold]
    simp [List.length_append]
    omega
  · rw [hret, h3] at hn
    simp at hn

theorem insert_len_some {t : TrieNode C} (hroot : RootOK t) {k : List Nat} {v w : C}
    (hs : (t.insert k v).2 = some w) : (t.insert k v).1.len = t.len := by
  obtain ⟨hret, ⟨la, lb, hnew, hcase⟩, hroot2⟩ := insert_spec hroot k v
  rw [len_eq_entries_length, len_eq_entries_length, hnew]
  rcases hcase with ⟨h3, hold⟩ | ⟨w2, h3, hold⟩
  · rw [hret, h3] at hs
    simp at hs
  · rw [hold]
    simp [List.length_append]

theorem lookupE_removed_none {la lb : List (List Nat × C)} {k : List Nat} {w : C}
    (hnd : ((la ++ (k, w) :: lb).map Prod.fst).Nodup) :
    lookupE (la ++ lb) k = none := by
  rw [List.map_append, List.map_cons] at hnd
  obtain ⟨nd1, nd2, hdisj⟩ := List.nodup_append.1 hnd
  rw [lookupE_eq_none_iff]
  intro e he hek
  rcases List.mem_append.1 he with h | h
  · have hx : k ∈ la.map Prod.fst := by
      rw [← hek]
      exact List.mem_map_of_mem Prod.fst h
    exact hdisj hx (by simp)
  · have hx : k ∈ lb.map Prod.fst := by
      rw [← hek]
      exact List.mem_map_of_mem Prod.fst h
    exact (List.nodup_cons.1 nd2).1 hx

theorem remove_ret {t : TrieNode C} (hroot : RootOK t) (k : List Nat) :
    (t.remove k).2 = t.get k := by
  rw [(remove_spec hroot k).1, get_lookup hroot]

theorem remove_get_self {t : TrieNode C} (hroot : RootOK t) (k : List Nat) :
    (t.remove k).1.get k = none := by
  obtain ⟨hret, hcase, hroot2⟩ := remove_spec hroot k
  rw [get_lookup hroot2]
  rcases hcase with ⟨hn, heq⟩ | ⟨w, la, lb, hs, hold, hnew⟩
  · rw [heq]
    exact hn
  · rw [hnew]
    have hnd := entries_keys_nodup t hroot.2
    rw [hold] at hnd
    exact lookupE_removed_none hnd

theorem remove_get_frame {t : TrieNode C} (hroot : RootOK t) {k k2 : List Nat}
    (hne : k2 ≠ k) : (t.remove k).1.get k2 = t.get k2 := by
  obtain ⟨hret, hcase, hroot2⟩ := remove_spec hroot k
  rcases hcase with ⟨hn, heq⟩ | ⟨w, la, lb, hs, hold, hnew⟩
  · rw [heq]
  · rw [get_lookup hroot2, get_lookup hroot, hnew, hold, lookupE_middle_ne hne]

theorem remove_len_some {t : TrieNode C} (hroot : RootOK t) {k : List Nat} {w : C}
    (hw : (t.remove k).2 = some w) : t.len = (t.remove k).1.len + 1 := by
  obtain ⟨hret, hcase, hroot2⟩ := remove_spec hroot k
  rcases hcase with ⟨hn, heq⟩ | ⟨w2, la, lb, hs, hold, hnew⟩
  · rw [hret, hn] at hw
    simp at hw
  · rw [len_eq_entries_length, len_eq_entries_length, hold, hnew]
    simp [List.length_append]
    omega

theorem remove_len_none {t : TrieNode C} (hroot : RootOK t) {k : List Nat}
    (hw : (t.remove k).2 = none) : (t.remove k).1 = t := by
  obtain ⟨hret, hcase, hroot2⟩ := remove_spec hroot k
  rcases hcase with ⟨hn, heq⟩ | ⟨w2, la, lb, hs, hold, hnew⟩
  · exact heq
  · rw [hret, hs] at hw
    simp at hw


/- ---------------------------------------------------------------------------
Operation sequences: runs of insertions and the insert/remove ledger.
--------------------------------------------------------------------------- -/

theorem insRun_nil (t : TrieNode C) : insRun t [] = t := rfl

theorem insRun_cons (t : TrieNode C) (e : List Nat × C) (ops : List (List Nat × C)) :
    insRun t (e :: ops) = insRun (t.insert e.1 e.2).1 ops := rfl

theorem applyOps_nil (t : TrieNode C) : applyOps t [] = t := rfl

theorem applyOps_cons (t : TrieNode C) (o : Op C) (ops : List (Op C)) :
    applyOps t (o :: ops) = applyOps (applyOp t o).1 ops := rfl

theorem ledger_nil (t : TrieNode C) : ledger t [] = (0, 0) := rfl

theorem ledger_ins (t : TrieNode C) (k : List Nat) (v : C) (ops : List (Op C)) :
    ledger t (.ins k v :: ops) =
      ((if (t.insert k v).2.isNone then 1 else 0) + (ledger (t.insert k v).1 ops).1,
        (ledger (t.insert k v).1 ops).2) := rfl

theorem ledger_del (t : TrieNode C) (k : List Nat) (ops : List (Op C)) :
    ledger t (.del k :: ops) =
      ((ledger (t.remove k).1 ops).1,
        (if (t.remove k).2.isNone then 0 else 1) + (ledger (t.remove k).1 ops).2) := rfl

theorem new_get (k : List Nat) : (TrieNode.new : TrieNode C).get k = none := by
  rw [get_lookup new_RootOK, new_entries]
  rfl

theorem new_len : (TrieNode.new : TrieNode C).len = 0 := by
  rw [len_eq_entries_length, new_entries]
  rfl

theorem insRun_RootOK (ops : List (List Nat × C)) :
    ∀ t : TrieNode C, RootOK t → RootOK (insRun t ops) := by
  induction ops with
  | nil =>
    intro t h
    exact h
  | cons e ops ih =>
    intro t ht
    rw [insRun_cons]
    exact ih _ (insert_spec ht e.1 e.2).2.2

/-- Running a list of insertions, `get` folds the run over the initial
lookup, keeping the latest binding of each key. -/
theorem insRun_get (ops : List (List Nat × C)) :
    ∀ t : TrieNode C, RootOK t → ∀ k : List Nat,
      (insRun t ops).get k =
        ops.foldl (fun acc e => if e.1 = k then some e.2 else acc) (t.get k) := by
  induction ops with
  | nil =>
    intro t h k
    rfl
  | cons e ops ih =>
    intro t ht k
    rw [insRun_cons, List.foldl_cons, ih _ (insert_spec ht e.1 e.2).2.2 k]
    congr 1
    by_cases hk : e.1 = k
    · subst hk
      rw [if_pos rfl, insert_get_self ht]
    · rw [if_neg hk, insert_get_frame ht (Ne.symm hk)]

/-- The ledger invariant: at any point of an operation run, the size equals
the initial size plus the fresh-key insertions minus the successful
removals (in added form). -/
theorem ledger_invariant (ops : List (Op C)) :
    ∀ t : TrieNode C, RootOK t →
      (applyOps t ops).len + (ledger t ops).2 = t.len + (ledger t ops).1 := by
  induction ops with
  | nil =>
    intro t h
    rw [applyOps_nil, ledger_nil]
  | cons o ops ih =>
    intro t ht
    cases o with
    | ins k v =>
      rw [applyOps_cons, ledger_ins]
      show (applyOps (t.insert k v).1 ops).len + (ledger (t.insert k v).1 ops).2 =
        t.len + ((if (t.insert k v).2.isNone then 1 else 0) + (ledger (t.insert k v).1 ops).1)
      rw [ih _ (insert_spec ht k v).2.2]
      cases hrv : (t.insert k v).2 with
      | none =>
        rw [insert_len_none ht hrv]
        rw [show (if (none : Option C).isNone = true then 1 else 0) = 1 from rfl]
        omega
      | some w =>
        rw [insert_len_some ht hrv]
        rw [show (if (some w).isNone = true then 1 else 0) = 0 from rfl]
        omega
    | del k =>
      rw [applyOps_cons, ledger_del]
      show (applyOps (t.remove k).1 ops).len + ((if (t.remove k).2.isNone then 0 else 1) +
          (ledger (t.remove k).1 ops).2) =
        t.len + (ledger (t.remove k).1 ops).1
      have h2 := ih _ (remove_spec ht k).2.2
      cases hrv : (t.remove k).2 with
      | none =>
        have heq := remove_len_none ht hrv
        rw [heq] at h2 ⊢
        rw [show (if (none : Option C).isNone = true then 0 else 1) = 0 from rfl]
        omega
      | some w =>
        have hlen := remove_len_some ht hrv
        rw [show (if (some w).isNone = true then 0 else 1) = 1 from rfl]
        omega


/- ---------------------------------------------------------------------------
The claims.
--------------------------------------------------------------------------- -/

/-- C1: running any sequence of insertions from the empty trie, `get` returns
the most recently inserted value for each key, and `insert` returns the
previously stored value (absence when the key was never inserted). -/
theorem c1_insert_get_mostRecent (ops : List (List Nat × C)) (k : List Nat) (v : C) :
    (insRun TrieNode.new ops).get k = mostRecent ops k ∧
    ((insRun TrieNode.new ops).insert k v).2 = mostRecent ops k := by
  have hroot := insRun_RootOK ops TrieNode.new new_RootOK
  have hget : (insRun TrieNode.new ops).get k = mostRecent ops k := by
    rw [insRun_get ops TrieNode.new new_RootOK k, new_get]
    rfl
  exact ⟨hget, by rw [insert_ret hroot, hget]⟩

/-- C2: if `k` is stored with value `v` in a reachable trie, `remove k`
returns `v`, a subsequent `get k` is absent, and `len` drops by exactly
one. -/
theorem c2_remove_roundtrip {t : TrieNode C} (hr : Reachable t) {k : List Nat} {v : C}
    (hg : t.get k = some v) :
    (t.remove k).2 = some v ∧ (t.remove k).1.get k = none ∧
      t.len = (t.remove k).1.len + 1 := by
  have hroot := Reachable_RootOK hr
  have hret : (t.remove k).2 = some v := by rw [remove_ret hroot, hg]
  exact ⟨hret, remove_get_self hroot k, remove_len_some hroot hret⟩

/-- Witness for C2 at the reachable singleton trie holding key `[1]`. -/
theorem c2_remove_roundtrip_witness :
    Reachable ((TrieNode.new.insert [1] (0 : Nat)).1) ∧
    (TrieNode.new.insert [1] (0 : Nat)).1.get [1] = some 0 ∧
    (((TrieNode.new.insert [1] (0 : Nat)).1.remove [1]).2 = some 0 ∧
      ((TrieNode.new.insert [1] (0 : Nat)).1.remove [1]).1.get [1] = none ∧
      (TrieNode.new.insert [1] (0 : Nat)).1.len =
        ((TrieNode.new.insert [1] (0 : Nat)).1.remove [1]).1.len + 1) := by
  have hg : (TrieNode.new.insert [1] (0 : Nat)).1.get [1] = some 0 := by
    simp [TrieNode.new, TrieNode.insert, TrieNode.remove, TrieNode.entry, TrieNode.get,
      searchNode, commonPrefixLen, SearchKey.asRef, SearchKey.consume, SearchKey.isEmpty,
      SearchKey.first, childFind, segHead, vacantInsert, occupiedInsertAt, modifyAt, nodeAt,
      removeEntryGo]
  exact ⟨Reachable.ins [1] 0 Reachable.new, hg,
    c2_remove_roundtrip (Reachable.ins [1] 0 Reachable.new) hg⟩

/-- C3: for every reachable trie, `prefix_len p` counts the stored keys that
`p` is a byte-wise prefix of; in particular `prefix_len []` equals `len`. -/
theorem c3_prefixLen_counts {t : TrieNode C} (hr : Reachable t) (p : List Nat) :
    t.prefixLen p = t.entries.countP (fun e => isPre p e.1) ∧
    t.prefixLen [] = t.len := by
  have hroot := Reachable_RootOK hr
  refine ⟨prefixLen_count hroot p, ?_⟩
  rw [prefixLen_count hroot [], len_eq_entries_length, List.countP_eq_length]
  intro e he
  simp

/-- Witness for C3 at a reachable trie holding key `[1, 2]`. -/
theorem c3_prefixLen_counts_witness :
    Reachable ((TrieNode.new.insert [1, 2] (0 : Nat)).1) ∧
    ((TrieNode.new.insert [1, 2] (0 : Nat)).1.prefixLen [1] =
        (TrieNode.new.insert [1, 2] (0 : Nat)).1.entries.countP (fun e => isPre [1] e.1) ∧
      (TrieNode.new.insert [1, 2] (0 : Nat)).1.prefixLen [] =
        (TrieNode.new.insert [1, 2] (0 : Nat)).1.len) :=
  ⟨Reachable.ins [1, 2] 0 Reachable.new,
    c3_prefixLen_counts (Reachable.ins [1, 2] 0 Reachable.new) [1]⟩

/-- C4: every trie reachable from the empty trie by the public operations
satisfies the structural invariants (each non-root node has a non-empty
segment and holds a value or a child; each child list is strictly sorted,
hence pairwise distinct, in the first segment byte; the root is exempt). -/
theorem c4_reachable_wf {t : TrieNode C} (hr : Reachable t) : WFroot t = true :=
  (Reachable_RootOK hr).2

/-- Witness for C4 at a reachable two-key trie. -/
theorem c4_reachable_wf_witness :
    Reachable (((TrieNode.new.insert [1] (0 : Nat)).1.insert [2] 1).1) ∧
    WFroot (((TrieNode.new.insert [1] (0 : Nat)).1.insert [2] 1).1) = true :=
  ⟨Reachable.ins [2] 1 (Reachable.ins [1] 0 Reachable.new),
    c4_reachable_wf (Reachable.ins [2] 1 (Reachable.ins [1] 0 Reachable.new))⟩

/-- C5: removing `k` from a reachable trie leaves every other stored key's
value retrievable unchanged. -/
theorem c5_remove_frame {t : TrieNode C} (hr : Reachable t) {k k2 : List Nat} {w : C}
    (hne : k2 ≠ k) (hg : t.get k2 = some w) :
    (t.remove k).1.get k2 = some w := by
  rw [remove_get_frame (Reachable_RootOK hr) hne, hg]

/-- Witness for C5: removing `[1]` leaves `[2]` retrievable. -/
theorem c5_remove_frame_witness :
    Reachable (((TrieNode.new.insert [1] (0 : Nat)).1.insert [2] 1).1) ∧
    ([2] : List Nat) ≠ [1] ∧
    (((TrieNode.new.insert [1] (0 : Nat)).1.insert [2] 1).1.get [2] = some 1) ∧
    ((((TrieNode.new.insert [1] (0 : Nat)).1.insert [2] 1).1.remove [1]).1.get [2] =
      some 1) := by
  have hr : Reachable (((TrieNode.new.insert [1] (0 : Nat)).1.insert [2] 1).1) :=
    Reachable.ins [2] 1 (Reachable.ins [1] 0 Reachable.new)
  have hg : ((TrieNode.new.insert [1] (0 : Nat)).1.insert [2] 1).1.get [2] = some 1 := by
    simp [TrieNode.new, TrieNode.insert, TrieNode.remove, TrieNode.entry, TrieNode.get,
      searchNode, commonPrefixLen, SearchKey.asRef, SearchKey.consume, SearchKey.isEmpty,
      SearchKey.first, childFind, segHead, vacantInsert, occupiedInsertAt, modifyAt, nodeAt,
      removeEntryGo]
  exact ⟨hr, by decide, hg, c5_remove_frame hr (by decide) hg⟩

/-- C6: on a reachable trie, `entry(k).or_insert(v)` inserts and yields `v`
when `k` is absent, and yields the existing value while leaving the trie
untouched when `k` is present. -/
theorem c6_orInsert_law {t : TrieNode C} (hr : Reachable t) (k : List Nat) (v : C) :
    (t.get k = none →
      (t.orInsert k v).2 = some v ∧ (t.orInsert k v).1.get k = some v) ∧
    (∀ w, t.get k = some w → t.orInsert k v = (t, some w)) := by
  have hroot := Reachable_RootOK hr
  obtain ⟨hcase, hroot2⟩ := orInsert_spec hroot k v
  constructor
  · intro hn
    rcases hcase with ⟨h1, h2, h3⟩ | ⟨w, h1, h2⟩
    · refine ⟨h3, ?_⟩
      rw [h2]
      exact insert_get_self hroot k v
    · rw [get_lookup hroot, h1] at hn
      simp at hn
  · intro w hw
    rcases hcase with ⟨h1, h2, h3⟩ | ⟨w2, h1, h2⟩
    · rw [get_lookup hroot, h1] at hw
      simp at hw
    · rw [get_lookup hroot, h1] at hw
      simp only [Option.some.injEq] at hw
      rw [h2, hw]

/-- Witness for C6 at the empty trie. -/
theorem c6_orInsert_law_witness :
    Reachable (TrieNode.new : TrieNode Nat) ∧
    (((TrieNode.new : TrieNode Nat).get [1] = none →
        ((TrieNode.new : TrieNode Nat).orInsert [1] 5).2 = some 5 ∧
        ((TrieNode.new : TrieNode Nat).orInsert [1] 5).1.get [1] = some 5) ∧
      (∀ w, (TrieNode.new : TrieNode Nat).get [1] = some w →
        (TrieNode.new : TrieNode Nat).orInsert [1] 5 = (TrieNode.new, some w))) :=
  ⟨Reachable.new, c6_orInsert_law Reachable.new [1] 5⟩


/-- C7 counterexample: after insert `[1]`, remove `[1]`, insert `[1]` again,
`len` is 1 while the number of distinct keys ever inserted minus the number
successfully removed is 1 - 1 = 0, so the claimed equation fails. -/
theorem c7_cex :
    (applyOps TrieNode.new [Op.ins [1] (0 : Nat), Op.del [1], Op.ins [1] 0]).len = 1 ∧
    distinctKeysInserted [Op.ins [1] (0 : Nat), Op.del [1], Op.ins [1] 0] = 1 ∧
    (ledger TrieNode.new [Op.ins [1] (0 : Nat), Op.del [1], Op.ins [1] 0]).2 = 1 ∧
    (1 : Nat) ≠ 1 - 1 := by
  refine ⟨?_, by decide, ?_, by decide⟩
  · simp [applyOps, applyOp, TrieNode.len, lenList, TrieNode.new, TrieNode.insert, TrieNode.remove, TrieNode.entry, TrieNode.get,
      searchNode, commonPrefixLen, SearchKey.asRef, SearchKey.consume, SearchKey.isEmpty,
      SearchKey.first, childFind, segHead, vacantInsert, occupiedInsertAt, modifyAt, nodeAt,
      removeEntryGo]
  · simp [ledger, TrieNode.new, TrieNode.insert, TrieNode.remove, TrieNode.entry, TrieNode.get,
      searchNode, commonPrefixLen, SearchKey.asRef, SearchKey.consume, SearchKey.isEmpty,
      SearchKey.first, childFind, segHead, vacantInsert, occupiedInsertAt, modifyAt, nodeAt,
      removeEntryGo]

/-- C7 (amended): `len` plus the number of successful removals equals the
number of insertions that found their key absent (a key re-inserted after a
removal counts again); inserting an already-present key does not change
`len`; and `len` is the recursive count of value-holding nodes, one per
stored entry. -/
theorem c7_len_ledger (ops : List (Op C)) :
    ((applyOps TrieNode.new ops).len + (ledger TrieNode.new ops).2 =
      (ledger TrieNode.new ops).1) ∧
    (∀ t : TrieNode C, Reachable t → ∀ (k : List Nat) (v : C),
      t.get k ≠ none → (t.insert k v).1.len = t.len) ∧
    (∀ t : TrieNode C, t.len = t.entries.length) := by
  refine ⟨?_, ?_, len_eq_entries_length⟩
  · have h := ledger_invariant ops TrieNode.new new_RootOK
    rw [new_len] at h
    omega
  · intro t hr k v hg
    have hroot := Reachable_RootOK hr
    cases hgv : t.get k with
    | none => exact absurd hgv hg
    | some w => exact insert_len_some hroot (by rw [insert_ret hroot, hgv])

/-- Witness for the amended C7: a present-key insert keeps `len` at 1. -/
theorem c7_len_ledger_witness :
    Reachable ((TrieNode.new.insert [1] (0 : Nat)).1) ∧
    (TrieNode.new.insert [1] (0 : Nat)).1.get [1] ≠ none ∧
    ((TrieNode.new.insert [1] (0 : Nat)).1.insert [1] 7).1.len =
      (TrieNode.new.insert [1] (0 : Nat)).1.len := by
  have hr : Reachable ((TrieNode.new.insert [1] (0 : Nat)).1) :=
    Reachable.ins [1] 0 Reachable.new
  have hg : (TrieNode.new.insert [1] (0 : Nat)).1.get [1] ≠ none := by
    simp [TrieNode.new, TrieNode.insert, TrieNode.remove, TrieNode.entry, TrieNode.get,
      searchNode, commonPrefixLen, SearchKey.asRef, SearchKey.consume, SearchKey.isEmpty,
      SearchKey.first, childFind, segHead, vacantInsert, occupiedInsertAt, modifyAt, nodeAt,
      removeEntryGo]
  exact ⟨hr, hg, (c7_len_ledger ([] : List (Op Nat))).2.1 _ hr [1] 7 hg⟩

/-- C8: removing an absent key from a reachable trie returns absence and
hands the trie back unchanged, so every later `get`, `len` and `prefix_len`
result is what it was before the call. -/
theorem c8_remove_absent {t : TrieNode C} (hr : Reachable t) {k : List Nat}
    (hg : t.get k = none) :
    t.remove k = (t, none) ∧
    (∀ k2, (t.remove k).1.get k2 = t.get k2) ∧
    (t.remove k).1.len = t.len ∧
    (∀ p, (t.remove k).1.prefixLen p = t.prefixLen p) := by
  have hroot := Reachable_RootOK hr
  have hret : (t.remove k).2 = none := by rw [remove_ret hroot, hg]
  have heq : (t.remove k).1 = t := remove_len_none hroot hret
  refine ⟨?_, fun k2 => by rw [heq], by rw [heq], fun p => by rw [heq]⟩
  rw [show t.remove k = ((t.remove k).1, (t.remove k).2) from rfl, heq, hret]

/-- Witness for C8: removing the absent key `[2]` from a trie holding `[1]`. -/
theorem c8_remove_absent_witness :
    Reachable ((TrieNode.new.insert [1] (0 : Nat)).1) ∧
    (TrieNode.new.insert [1] (0 : Nat)).1.get [2] = none ∧
    ((TrieNode.new.insert [1] (0 : Nat)).1.remove [2] =
        ((TrieNode.new.insert [1] (0 : Nat)).1, none) ∧
      (∀ k2, ((TrieNode.new.insert [1] (0 : Nat)).1.remove [2]).1.get k2 =
        (TrieNode.new.insert [1] (0 : Nat)).1.get k2) ∧
      ((TrieNode.new.insert [1] (0 : Nat)).1.remove [2]).1.len =
        (TrieNode.new.insert [1] (0 : Nat)).1.len ∧
      (∀ p, ((TrieNode.new.insert [1] (0 : Nat)).1.remove [2]).1.prefixLen p =
        (TrieNode.new.insert [1] (0 : Nat)).1.prefixLen p)) := by
  have hr : Reachable ((TrieNode.new.insert [1] (0 : Nat)).1) :=
    Reachable.ins [1] 0 Reachable.new
  have hg : (TrieNode.new.insert [1] (0 : Nat)).1.get [2] = none := by
    simp [TrieNode.new, TrieNode.insert, TrieNode.remove, TrieNode.entry, TrieNode.get,
      searchNode, commonPrefixLen, SearchKey.asRef, SearchKey.consume, SearchKey.isEmpty,
      SearchKey.first, childFind, segHead, vacantInsert, occupiedInsertAt, modifyAt, nodeAt,
      removeEntryGo]
  exact ⟨hr, hg, c8_remove_absent hr hg⟩

/-- C9: on any reachable trie, a `Found` search result designates a node
whose stored value is present, so the unwraps in the occupied-entry
accessors and in `remove_entry` cannot fail. -/
theorem c9_found_value_present {t : TrieNode C} (hr : Reachable t) {k path : List Nat}
    {kk : SearchKey} (hsr : searchNode t ⟨k, 0⟩ = .found path kk) :
    (nodeAt t path).data.isSome = true ∧ (removeEntryGo t path).2.1.isSome = true := by
  obtain ⟨hb, ho, m, pre, hdesc, hsegs, hsome⟩ :=
    search_found_shape t ⟨k, 0⟩ path kk (by simp) hsr
  have hnode := descend_nodeAt hdesc
  refine ⟨by rw [hnode]; exact hsome, ?_⟩
  rw [removeEntryGo_val, hnode]
  exact hsome

/-- Witness for C9: the successful search for `[1]` in a singleton trie. -/
theorem c9_found_value_present_witness :
    Reachable ((TrieNode.new.insert [1] (0 : Nat)).1) ∧
    searchNode ((TrieNode.new.insert [1] (0 : Nat)).1) ⟨[1], 0⟩ = .found [0] ⟨[1], 1⟩ ∧
    ((nodeAt ((TrieNode.new.insert [1] (0 : Nat)).1) [0]).data.isSome = true ∧
      (removeEntryGo ((TrieNode.new.insert [1] (0 : Nat)).1) [0]).2.1.isSome = true) := by
  have hr : Reachable ((TrieNode.new.insert [1] (0 : Nat)).1) :=
    Reachable.ins [1] 0 Reachable.new
  have hsr : searchNode ((TrieNode.new.insert [1] (0 : Nat)).1) ⟨[1], 0⟩ =
      .found [0] ⟨[1], 1⟩ := by
    simp [TrieNode.new, TrieNode.insert, TrieNode.remove, TrieNode.entry, TrieNode.get,
      searchNode, commonPrefixLen, SearchKey.asRef, SearchKey.consume, SearchKey.isEmpty,
      SearchKey.first, childFind, segHead, vacantInsert, occupiedInsertAt, modifyAt, nodeAt,
      removeEntryGo]
  exact ⟨hr, hsr, c9_found_value_present hr hsr⟩

/-- C10 counterexample: with keys `[1, 2]` and `[1, 3]` stored, `entry [1]`
stops at a valueless interior node (`Leaf` position) and its `key()` reports
the empty key rather than the caller's `[1]`. -/
theorem c10_cex :
    (((TrieNode.new.insert [1, 2] (0 : Nat)).1.insert [1, 3] 1).1.entry [1]).key = [] ∧
    ([] : List Nat) ≠ [1] := by
  refine ⟨?_, by decide⟩
  simp [Entry.key, TrieNode.new, TrieNode.insert, TrieNode.remove, TrieNode.entry, TrieNode.get,
      searchNode, commonPrefixLen, SearchKey.asRef, SearchKey.consume, SearchKey.isEmpty,
      SearchKey.first, childFind, segHead, vacantInsert, occupiedInsertAt, modifyAt, nodeAt,
      removeEntryGo]

/-- C10 (amended): `entry(k).key()` returns the caller's key except when the
entry is vacant at a `Leaf` position, where the source substitutes the empty
key. -/
theorem c10_entry_key (t : TrieNode C) (k : List Nat) :
    (t.entry k).key = if (t.entry k).posOf = some PosType.leaf then [] else k := by
  cases hsr : searchNode t ⟨k, 0⟩ with
  | found path kk =>
    have hent : t.entry k = .occupied path kk.base := by
      unfold TrieNode.entry
      rw [hsr]
    obtain ⟨hb, ho, hrest⟩ := search_found_shape t ⟨k, 0⟩ path kk (by simp) hsr
    rw [hent]
    simp [Entry.key, Entry.posOf, hb]
  | notFound path pos left =>
    have hent : t.entry k = .vacant path pos left.base left.offset := by
      unfold TrieNode.entry
      rw [hsr]
    obtain ⟨m, pre, r, hdesc, hsplit, hhead, hposf⟩ :=
      search_notFound_shape t ⟨k, 0⟩ path pos left (by simp) hsr
    rw [hent]
    cases pos with
    | leaf =>
      obtain ⟨h1, h2, h3⟩ := hposf
      simp [Entry.key, Entry.posOf, h3]
    | child i =>
      obtain ⟨h1, h2, h3, h4, h5⟩ := hposf
      simp [Entry.key, Entry.posOf, h4]
    | edge p =>
      obtain ⟨h1, h2, h3, h4, h5⟩ := hposf
      simp [Entry.key, Entry.posOf, h3]


end Rtrie
